import Mathlib

/-!
Verification of sreadahead.

A shallow embedding of `sreadahead.c` (trace collection, fragment reduction,
pack store) and theorems about it.

Conventions of the embedding.

* `uint32_t` values are natural numbers; every arithmetic result stored in a
  `uint32_t` goes through `u32`, every conversion to `int` through `i32`.
* A C string is the list of its bytes before the terminating NUL (so no
  element is 0); a byte is a natural number.
* A C array is a list; `count` parameters stay separate from the list, as in
  the source, where `record` has 4096 slots of which `count` are in use.
-/

namespace Sreadahead

/-! ## Constants -/

/-- The constant `MAXR` (`#define MAXR 40000`): capacity of `ra` and `rd`. -/
def MAXR : Nat := 40000

/-- The constant `MAXFL` (`#define MAXFL 128`): width of the path field. -/
def MAXFL : Nat := 128

/-- The constant `MAXRECS` (`#define MAXRECS 6`): ranges kept per file. -/
def MAXRECS : Nat := 6

/-! ## Machine integers -/

/-- Reduction of an integer to the value an `uint32_t` holds. -/
def u32 (x : Int) : Nat := (x % 4294967296).toNat

/-- Conversion of an `uint32_t` value to `int` (two's complement). -/
def i32 (x : Nat) : Int := if x < 2147483648 then (x : Int) else (x : Int) - 4294967296

/-! ## Records -/

/-- The C type `struct ra_record { uint32_t offset; uint32_t len; }`. -/
structure ra_record where
  offset : Nat
  len : Nat
deriving DecidableEq, Repr, Inhabited

/-- The zero record (what `memset(…, 0, …)` leaves in a slot). -/
def ra_record.zero : ra_record := ⟨0, 0⟩

/-- The element `record[i]` for an index inside the array (the zero record
stands for a slot outside the list, which the source never reads). -/
def rec_at (record : List ra_record) (i : Nat) : ra_record := record.getD i ra_record.zero

/-! ## smallest_gap -/

/-- The statement `gap = (record + 1)->offset - record->offset - record->len;`
at index `i`: unsigned 32-bit arithmetic, then converted to `int`. -/
def gap_at (record : List ra_record) (i : Nat) : Int :=
  i32 (u32 ((rec_at record (i + 1)).offset - (rec_at record i).offset - (rec_at record i).len))

/-- One iteration of the `for` loop of `smallest_gap`; the state is
`(cur, maxgap)`. -/
def smallest_gap_step (record : List ra_record) (count : Nat) (s : Nat × Int) (i : Nat) :
    Nat × Int :=
  if i + 1 < count then
    if gap_at record i < s.2 then (i, gap_at record i) else s
  else s

/-- The function `static int smallest_gap(struct ra_record *record, int count)`:
`cur = 0, maxgap = 1024*1024*512`, then `for (i = 0; i < count; i++)`. -/
def smallest_gap (record : List ra_record) (count : Nat) : Nat :=
  ((List.range count).foldl (smallest_gap_step record count) (0, 536870912)).1

/-! ## merge_record and reduce_blocks -/

/-- The order of address in which `memcpy` copies. C does not fix it, and it
shows when source and destination overlap. -/
inductive copy_order where
  | ascending
  | descending
deriving DecidableEq, Repr

/-- One step of a copy from `&a[src]` to `&a[dst]`: `a[dst + k] = a[src + k]`,
read from the array as it is when the step runs. -/
def copy_slot (dst src : Nat) (a : List ra_record) (k : Nat) : List ra_record :=
  a.set (dst + k) (rec_at a (src + k))

/-- The call `memcpy(&a[dst], &a[src], n * sizeof a[0])` on one array. In
`merge_record` the source lies one slot above the destination, so the two
regions overlap as soon as `n ≥ 2`, which C leaves undefined for `memcpy`
(`memmove` is the call for overlapping regions). The model takes the order of
the copy as a parameter and runs the `n` one-slot steps in that order:
ascending leaves what `memmove` leaves, descending leaves the last source slot
in every destination slot. A slot is as wide as the distance between source
and destination, so a copy byte by byte gives the same arrays. -/
def array_copy (o : copy_order) (a : List ra_record) (dst src n : Nat) : List ra_record :=
  match o with
  | copy_order.ascending => (List.range n).foldl (copy_slot dst src) a
  | copy_order.descending => (List.range n).reverse.foldl (copy_slot dst src) a

/-- The function
`static int merge_record(struct ra_record *record, int count, int to_merge)`.
Returns the array after the call and the returned count; `o` is the order in
which its `memcpy` copies. -/
def merge_record (o : copy_order) (record : List ra_record) (count to_merge : Nat) :
    List ra_record × Nat :=
  let a := rec_at record to_merge
  let b := rec_at record (to_merge + 1)
  let record1 := record.set to_merge { a with len := u32 (b.offset + b.len - a.offset) }
  (array_copy o record1 (to_merge + 1) (to_merge + 2) (count - to_merge - 2), count - 1)

/-- The `while (count > target)` loop of `reduce_blocks`, with a bound on the
number of iterations; `none` when the bound is reached with the loop
condition still true. -/
def reduce_loop (o : copy_order) (target : Nat) :
    Nat → List ra_record → Nat → Option (List ra_record × Nat)
  | 0, record, count => if count > target then none else some (record, count)
  | fuel + 1, record, count =>
    if count > target then
      let tomerge := smallest_gap record count
      let r := merge_record o record count tomerge
      reduce_loop o target fuel r.1 r.2
    else some (record, count)

/-- The function
`static int reduce_blocks(struct ra_record *record, int count, int target)`.
Each iteration lowers `count` by one, so `count` iterations are allowed. -/
def reduce_blocks (o : copy_order) (record : List ra_record) (count target : Nat) :
    Option (List ra_record × Nat) :=
  reduce_loop o target count record count

/-! ## get_blocks -/

/-- What the operating system reports for the path of one candidate:
whether `fopen` succeeds, whether `S_ISREG(st_mode)` holds, `st_size`, and the
contents of `mincorebuf` after the `mincore` call (one byte per page,
`st_size/4096 + 1` slots). -/
structure file_info where
  opens : Bool
  isreg : Bool
  st_size : Nat
  mincorebuf : List Nat
deriving DecidableEq, Repr

/-- What a call of an `int` function hands back: the value of the `return`
statement executed, or `missing` when control reaches the closing brace
without one. -/
inductive retval where
  | value (v : Int)
  | missing
deriving DecidableEq, Repr

/-- Local variables of the residency scan in `get_blocks` (`there` and
`notthere` only feed the debug output and are left out; `int i` is unbounded,
which is what the source computes for `st_size < 2^31 - 4096`). -/
structure scan_state where
  i : Nat
  phase : Nat
  start : Nat
  rcount : Nat
  record : List ra_record
deriving DecidableEq, Repr

/-- The body of `for (i = 0; i <= statbuf.st_size; i += 4096)`, without the
increment. -/
def scan_body (f : file_info) (s : scan_state) : scan_state :=
  let m := f.mincorebuf.getD (s.i / 4096) 0
  if s.phase = 1 ∧ m = 0 then
    let i1 := if s.i > f.st_size then f.st_size + 1 else s.i
    let record1 := s.record.set s.rcount ⟨s.start, u32 ((i1 : Int) - 1 - s.start)⟩
    let rcount1 := s.rcount + 1
    { i := i1, phase := 0, start := s.start,
      rcount := if rcount1 ≥ 4000 then 4000 else rcount1, record := record1 }
  else if s.phase = 0 ∧ m ≠ 0 then
    { s with phase := 1, start := u32 s.i }
  else s

/-- The loop `for (…; i <= statbuf.st_size; i += 4096)` with a bound on the
number of iterations; `none` when the bound is reached with the loop
condition still true. -/
def scan_loop (f : file_info) : Nat → scan_state → Option scan_state
  | 0, s => if s.i ≤ f.st_size then none else some s
  | fuel + 1, s =>
    if s.i ≤ f.st_size then
      let s1 := scan_body f s
      scan_loop f fuel { s1 with i := s1.i + 4096 }
    else some s

/-- The block `if (phase == 1) { … }` after the loop. -/
def scan_finish (f : file_info) (s : scan_state) : scan_state :=
  if s.phase = 1 then
    let i1 := if s.i > f.st_size then f.st_size + 1 else s.i
    { s with i := i1,
             record := s.record.set s.rcount ⟨s.start, u32 ((i1 : Int) - 1 - s.start)⟩,
             rcount := s.rcount + 1 }
  else s

/-- The residency scan of `get_blocks`: `memset(record, 0, sizeof(record))`,
the choice of the first phase from `mincorebuf[0]`, the loop and the block
after it. `i` takes the values `0, 4096, …`, so `st_size/4096 + 1` iterations
are allowed. -/
def scan (f : file_info) : Option scan_state :=
  let record0 := List.replicate 4096 ra_record.zero
  let phase0 := if f.mincorebuf.getD 0 0 ≠ 0 then 1 else 0
  (scan_loop f (f.st_size / 4096 + 1)
    { i := 0, phase := phase0, start := 0, rcount := 0, record := record0 }).map (scan_finish f)

/-- The function `static int get_blocks(struct ra_struct *r)` for a non-null
`r`, given what the system reports for `r->filename` and the contents of
`r->data` before the call. Returns the return value and `r->data` after the
call; the outer `none` is for a loop bound reached. The `if (debug)` block
only prints and updates the debug totals and is left out. -/
def get_blocks (o : copy_order) (f : file_info) (data : List ra_record) :
    Option (retval × List ra_record) :=
  if !f.opens then some (retval.value 0, data)
  else if !f.isreg then some (retval.value 0, data)
  else
    match scan f with
    | none => none
    | some s =>
      match reduce_blocks o s.record s.rcount MAXRECS with
      | none => none
      | some (record, rcount) =>
        if rcount > 0 then
          if (rec_at record 0).len = 0 then some (retval.value 0, data)
          else some (retval.value 1, record.take MAXRECS)
        else some (retval.missing, data)

/-- A file of 57343 bytes (14 pages) whose even pages 0, 2, …, 12 are
resident: seven single-page runs. -/
def seven_runs : file_info :=
  { opens := true, isreg := true, st_size := 57343,
    mincorebuf := [1, 0, 1, 0, 1, 0, 1, 0, 1, 0, 1, 0, 1, 0] }

/-! ## C strings -/

/-- The bytes of a string literal. -/
def cstr (s : String) : List Nat := s.toList.map Char.toNat

/-- The sign of `strcmp(a, b)`: bytes are compared as unsigned values and the
terminating NUL, which is below every byte of a string, ends the shorter one. -/
def strcmp : List Nat → List Nat → Int
  | [], [] => 0
  | [], _ :: _ => -1
  | _ :: _, [] => 1
  | x :: a, y :: b => if x < y then -1 else if y < x then 1 else strcmp a b

/-- The test `strncmp(a, b, n) == 0`. -/
def strncmp_eq (a b : List Nat) (n : Nat) : Bool := a.take n == b.take n

/-- The call `strchr(s, c)` for `c ≠ 0`: offset of the first `c` in `s`, `none`
for a null result. -/
def strchr : List Nat → Nat → Option Nat
  | [], _ => none
  | x :: s, c => if x = c then some 0 else (strchr s c).map (· + 1)

/-- The call `strrchr(s, c)` for `c ≠ 0`: offset of the last `c` in `s`, `none`
for a null result. -/
def strrchr : List Nat → Nat → Option Nat
  | [], _ => none
  | x :: s, c =>
    match strrchr s c with
    | some k => some (k + 1)
    | none => if x = c then some 0 else none

/-! ## Trace lines -/

/-- A `char *` value during the parsing of one line: `buf + off`, or an
address that belongs to no object (`NULL` is `abs 0`, `NULL + 1` is `abs 1`). -/
inductive char_ptr where
  | buf (off : Nat)
  | abs (addr : Nat)
deriving DecidableEq, Repr

/-- What the statements from `if (buf[0] == '#')` to
`filename[len - start] = 0` do with one line: `skip` when a `continue` is
taken, `fault` when a pointer outside every object is dereferenced or
subtracted (undefined behaviour, in practice a crash), `extracted filename`
otherwise. -/
inductive line_result where
  | skip
  | fault
  | extracted (filename : List Nat)
deriving DecidableEq, Repr

/-- The value of `start` after `start = strchr(buf, 34) + 1` (34 is the
double quote). -/
def line_start (line : List Nat) : char_ptr :=
  match strchr line 34 with
  | some k => char_ptr.buf (k + 1)
  | none => char_ptr.abs 1

/-- Lines 507 to 517 of `trace_stop` on the string `line` held in `buf`
(35 is `#`). `strrchr(start, …)` reads through `start`; `len - start` with a
null `len` is no valid length for `strncpy`. -/
def extract_filename (line : List Nat) : line_result :=
  if line.head? = some 35 then line_result.skip
  else
    let start := line_start line
    if start = char_ptr.buf 0 then line_result.skip
    else
      match start with
      | char_ptr.abs _ => line_result.fault
      | char_ptr.buf k =>
        match strrchr (line.drop k) 34 with
        | none => line_result.fault
        | some n => line_result.extracted ((line.drop k).take n)

/-- The three `strncmp` filters: paths under `/dev/`, `/sys/`, `/proc/`. -/
def ignored (filename : List Nat) : Bool :=
  strncmp_eq filename (cstr "/dev/") 5 || strncmp_eq filename (cstr "/sys/") 5 ||
    strncmp_eq filename (cstr "/proc/") 6

/-! ## Candidate nodes and memory -/

/-- The C type `struct ra_struct`; `filename` holds the string stored in the
field, `next` and `prev` the address of a node or `none` for `NULL`. -/
structure ra_struct where
  filename : List Nat
  data : List ra_record
  next : Option Nat
  prev : Option Nat
  number : Nat
deriving DecidableEq, Repr

/-- A node after `memset(tmp, 0, sizeof(struct ra_struct))`. -/
def ra_struct.zero : ra_struct :=
  { filename := [], data := List.replicate 6 ra_record.zero, next := none, prev := none,
    number := 0 }

/-- The nodes obtained from `malloc`, by address, and the addresses already
passed to `free`. -/
structure memory where
  node : Nat → ra_struct
  freed : List Nat

/-- Memory before the first `malloc`. -/
def memory.empty : memory := { node := fun _ => ra_struct.zero, freed := [] }

/-- Read through a node pointer; `none` when the node has been freed. -/
def memory.load (m : memory) (p : Nat) : Option ra_struct :=
  if p ∈ m.freed then none else some (m.node p)

/-- Write a node. -/
def memory.store (m : memory) (p : Nat) (v : ra_struct) : memory :=
  { m with node := fun q => if q = p then v else m.node q }

/-- The call `free(p)`. -/
def memory.free (m : memory) (p : Nat) : memory := { m with freed := p :: m.freed }

/-- The two statements that take the node `x` out of the list, as written in
`remove_dupes` and in `get_ra_blocks`:
`if (x->next) x->next->prev = x->prev; if (x->prev) x->prev->next = x->next;`. -/
def unlink (m : memory) (x : Nat) : Option memory :=
  match m.load x with
  | none => none
  | some rx =>
    let m1 : Option memory :=
      match rx.next with
      | none => some m
      | some n =>
        match m.load n with
        | none => none
        | some rn => some (m.store n { rn with prev := rx.prev })
    match m1 with
    | none => none
    | some m1 =>
      match (m1.node x).prev with
      | none => some m1
      | some p =>
        match m1.load p with
        | none => none
        | some rp => some (m1.store p { rp with next := (m1.node x).next })

/-- The loop `r = first; while (r) { …; r = r->next; }`: the addresses visited,
`none` when a freed node is read or the bound is reached. -/
def walk (m : memory) : Nat → Option Nat → Option (List Nat)
  | _, none => some []
  | 0, some _ => none
  | fuel + 1, some r =>
    match m.load r with
    | none => none
    | some node =>
      match walk m fuel node.next with
      | none => none
      | some rest => some (r :: rest)

/-! ## Collection -/

/-- The array `ra` below `racount` (every slot there points to a node until
`remove_dupes` runs, so the slots are addresses) and the memory. `racount` is
the length of `ra`. -/
structure collector where
  ra : List Nat
  mem : memory

/-- The collector before the first line. -/
def collector.init : collector := { ra := [], mem := memory.empty }

/-- The block under `if (strlen(filename) <= MAXFL)`: a fresh zeroed node
(`malloc` hands out address `racount`), `ra[racount] = tmp`, `strcpy`, the two
link assignments when `racount > 0`, `number`, `racount++`. -/
def add_candidate (c : collector) (filename : List Nat) : collector :=
  let racount := c.ra.length
  let tmp := racount
  let ra1 := c.ra ++ [tmp]
  let m1 := c.mem.store tmp { ra_struct.zero with filename := filename }
  let m2 :=
    if racount > 0 then
      let cur := ra1.getD racount 0
      let before := ra1.getD (racount - 1) 0
      let m := m1.store cur { m1.node cur with prev := some before }
      m.store before { m.node before with next := some cur }
    else m1
  let cur := ra1.getD racount 0
  { ra := ra1, mem := m2.store cur { m2.node cur with number := racount } }

/-- The loop `while (fgets(buf, 4095, file) != NULL)` over the strings that
`fgets` delivers; `none` when a line faults. -/
def collect : List (List Nat) → collector → Option collector
  | [], c => some c
  | line :: rest, c =>
    match extract_filename line with
    | line_result.skip => collect rest c
    | line_result.fault => none
    | line_result.extracted filename =>
      if ignored filename then collect rest c
      else if c.ra.length ≥ MAXR then some c
      else if filename.length ≤ MAXFL then collect rest (add_candidate c filename)
      else collect rest c

/-- The assignment `first_ra = ra[0]` (`ra` is static, so `ra[0]` is null when
nothing was collected). -/
def first_ra (c : collector) : Option Nat := c.ra.head?

/-! ## sort_ra_by_name -/

/-- The string `ra[i]->filename`. -/
def name_at (m : memory) (ra : List Nat) (i : Nat) : List Nat := (m.node (ra.getD i 0)).filename

/-- The loop `for (i = 0; i < racount - 1; i++)` of `sort_ra_by_name`, from
index `i` with `n` iterations to go; the result is the array and `delta`. -/
def sort_pass (m : memory) : Nat → Nat → List Nat → Nat → List Nat × Nat
  | 0, _, ra, delta => (ra, delta)
  | n + 1, i, ra, delta =>
    if strcmp (name_at m ra i) (name_at m ra (i + 1)) > 0 then
      let tmp := ra.getD i 0
      let ra1 := ra.set i (ra.getD (i + 1) 0)
      sort_pass m n (i + 1) (ra1.set (i + 1) tmp) (delta + 1)
    else sort_pass m n (i + 1) ra delta

/-- The loop `while (delta > 0)` with a bound on the number of passes; `none`
when the bound is reached. -/
def sort_loop (m : memory) : Nat → List Nat → Option (List Nat)
  | 0, _ => none
  | fuel + 1, ra =>
    let r := sort_pass m (ra.length - 1) 0 ra 0
    if r.2 > 0 then sort_loop m fuel r.1 else some r.1

/-- The function `sort_ra_by_name`; `racount * racount + 1` passes are allowed. -/
def sort_ra_by_name (m : memory) (ra : List Nat) : Option (List Nat) :=
  sort_loop m (ra.length * ra.length + 1) ra

/-! ## remove_dupes -/

/-- The inner loop `for (j = i + 1; j < racount; j++)` of `remove_dupes`, at
index `j` with `n = racount - j` iterations to go. The result is the value of
`i` when the loop is left, the array and the memory; `none` when a null or
freed pointer is dereferenced. -/
def dupes_inner (i : Nat) :
    Nat → Nat → List (Option Nat) → memory → Option (Nat × List (Option Nat) × memory)
  | 0, _, ra, m => some (i, ra, m)
  | n + 1, j, ra, m =>
    match ra.getD i none with
    | none => some (i, ra, m)
    | some a =>
      match ra.getD j none with
      | none => none
      | some b =>
        match m.load a, m.load b with
        | some na, some nb =>
          if strcmp na.filename nb.filename ≠ 0 then some (j - 1, ra, m)
          else
            match unlink m b with
            | none => none
            | some m1 => dupes_inner i n (j + 1) (ra.set j none) (m1.free b)
        | _, _ => none

/-- The outer loop `for (i = 0; i < racount - 1; i++)` of `remove_dupes` with a
bound on the number of iterations. -/
def dupes_outer (racount : Nat) :
    Nat → Nat → List (Option Nat) → memory → Option (List (Option Nat) × memory)
  | 0, i, ra, m => if i + 1 < racount then none else some (ra, m)
  | fuel + 1, i, ra, m =>
    if i + 1 < racount then
      match dupes_inner i (racount - (i + 1)) (i + 1) ra m with
      | none => none
      | some (i1, ra1, m1) => dupes_outer racount fuel (i1 + 1) ra1 m1
    else some (ra, m)

/-- The function `remove_dupes` on the sorted array; `i` grows in every
iteration of the outer loop, so `racount` iterations are allowed. -/
def remove_dupes (ra : List Nat) (m : memory) : Option (List (Option Nat) × memory) :=
  dupes_outer ra.length ra.length 0 (ra.map some) m

/-- The candidate list after `sort_ra_by_name(); remove_dupes();`: the
addresses met from `first_ra` along `next`, and the memory. -/
def sorted_deduped (c : collector) : Option (List Nat × memory) :=
  match sort_ra_by_name c.mem c.ra with
  | none => none
  | some ra =>
    match remove_dupes ra c.mem with
    | none => none
    | some (_, m) =>
      match walk m c.ra.length (first_ra c) with
      | none => none
      | some l => some (l, m)

/-- The paths of a list of nodes. -/
def paths (m : memory) (l : List Nat) : List (List Nat) := l.map (fun a => (m.node a).filename)

/-! ## get_ra_blocks -/

/-- The function `get_ra_blocks`, from the node `r` on, with a bound on the
number of iterations. `files` is what the system reports for each path.
`none` when a freed node is read, when `get_blocks` hands back no value to
test, or when the bound is reached. -/
def get_ra_blocks_loop (o : copy_order) (files : List Nat → file_info) :
    Nat → Option Nat → memory → Option memory
  | _, none, m => some m
  | 0, some _, _ => none
  | fuel + 1, some r, m =>
    match m.load r with
    | none => none
    | some node =>
      match get_blocks o (files node.filename) node.data with
      | none => none
      | some (retval.missing, _) => none
      | some (retval.value v, data) =>
        let m1 := m.store r { node with data := data }
        let m2 := if v = 0 then unlink m1 r else some m1
        match m2 with
        | none => none
        | some m2 => get_ra_blocks_loop o files fuel (m2.node r).next m2

/-- The function `get_ra_blocks`: `r = first_ra`, then the loop; the list has
at most `racount` nodes. -/
def get_ra_blocks (o : copy_order) (files : List Nat → file_info) (racount : Nat)
    (first : Option Nat) (m : memory) : Option memory :=
  get_ra_blocks_loop o files racount first m

/-! ## Pack store -/

/-- The C type `struct ra_disk`: the 128 bytes of `filename` and the 6 slots
of `data`. -/
structure ra_disk where
  filename : List Nat
  data : List ra_record
deriving DecidableEq, Repr

/-- The four bytes of an `uint32_t` in memory, in the byte order of the
machine. -/
def u32_bytes (big_endian : Bool) (x : Nat) : List Nat :=
  let le := [x % 256, x / 256 % 256, x / 65536 % 256, x / 16777216 % 256]
  if big_endian then le.reverse else le

/-- The `uint32_t` that four bytes in memory hold. -/
def bytes_u32 (big_endian : Bool) (b : List Nat) : Nat :=
  let le := if big_endian then b.reverse else b
  le.getD 0 0 + 256 * le.getD 1 0 + 65536 * le.getD 2 0 + 16777216 * le.getD 3 0

/-- The eight bytes of a `struct ra_record`. -/
def record_bytes (big_endian : Bool) (r : ra_record) : List Nat :=
  u32_bytes big_endian r.offset ++ u32_bytes big_endian r.len

/-- The 128 bytes of the field `filename` of a node: the string stored by
`strcpy` over the zeroed field. -/
def filename_field (filename : List Nat) : List Nat :=
  (filename ++ List.replicate MAXFL 0).take MAXFL

/-- The part of a node that `trace_stop` writes: `filename` and `data`. -/
def disk_of (n : ra_struct) : ra_disk :=
  { filename := filename_field n.filename, data := (List.range MAXRECS).map (rec_at n.data) }

/-- The bytes of `fwrite(r->filename, MAXFL, 1, file);
fwrite(r->data, sizeof(r->data), 1, file);`. -/
def disk_bytes (big_endian : Bool) (d : ra_disk) : List Nat :=
  d.filename ++ d.data.flatMap (record_bytes big_endian)

/-- The bytes the write loop of `trace_stop` puts into the pack file for a
sequence of records. -/
def pack_bytes (big_endian : Bool) (l : List ra_disk) : List Nat :=
  l.flatMap (disk_bytes big_endian)

/-- The loop `r = first_ra; while (r) { fwrite …; r = r->next; rdcount++; }`. -/
def write_pack (big_endian : Bool) (m : memory) (fuel : Nat) (first : Option Nat) :
    Option (List Nat) :=
  (walk m fuel first).map (fun l => pack_bytes big_endian (l.map (fun a => disk_of (m.node a))))

/-- The size of `struct ra_disk`: 128 + 6 * 8 bytes. -/
def RECSIZE : Nat := 176

/-- One `struct ra_disk` from its 176 bytes. -/
def read_record (big_endian : Bool) (b : List Nat) : ra_disk :=
  { filename := b.take MAXFL,
    data := (List.range MAXRECS).map (fun k =>
      { offset := bytes_u32 big_endian ((b.drop (MAXFL + 8 * k)).take 4),
        len := bytes_u32 big_endian ((b.drop (MAXFL + 8 * k + 4)).take 4) }) }

/-- The first `n` records of `rd` after `fread` has stored the bytes. -/
def read_records (big_endian : Bool) : Nat → List Nat → List ra_disk
  | 0, _ => []
  | n + 1, bytes => read_record big_endian (bytes.take RECSIZE) ::
      read_records big_endian n (bytes.drop RECSIZE)

/-- The call `total_files = fread(&rd, sizeof(struct ra_disk), MAXR, file)` on
a file with the given bytes: the records counted and `total_files`. -/
def read_pack (big_endian : Bool) (bytes : List Nat) : List ra_disk × Nat :=
  let total_files := min (bytes.length / RECSIZE) MAXR
  (read_records big_endian total_files bytes, total_files)

/-- The pack of a learning run: collection, `first_ra = ra[0]`, sort, dedup,
`get_ra_blocks`, then the records met from `first_ra`. -/
def learned_pack (o : copy_order) (files : List Nat → file_info) (trace : List (List Nat)) :
    Option (List ra_disk) :=
  match collect trace collector.init with
  | none => none
  | some c =>
    match sort_ra_by_name c.mem c.ra with
    | none => none
    | some ra =>
      match remove_dupes ra c.mem with
      | none => none
      | some (_, m) =>
        match get_ra_blocks o files c.ra.length (first_ra c) m with
        | none => none
        | some m1 =>
          (walk m1 c.ra.length (first_ra c)).map (fun l => l.map (fun a => disk_of (m1.node a)))

/-! ## Inputs used in the theorems below -/

/-- The trace of the scenario: two opens of `/bin/ls`, one of `/dev/null`. -/
def trace3 : List (List Nat) :=
  [cstr "open (path=\"/bin/ls\")\n", cstr "open (path=\"/bin/ls\")\n",
   cstr "open (path=\"/dev/null\")\n"]

/-- A system in which no path can be opened. -/
def nofile : List Nat → file_info :=
  fun _ => { opens := false, isreg := false, st_size := 0, mincorebuf := [] }

/-- Three ranges whose two gaps are 1073737728 and 536870912 bytes. -/
def wide_gaps : List ra_record :=
  [⟨0, 4096⟩, ⟨1073741824, 4096⟩, ⟨1610616832, 4096⟩]

/-- A regular file of two pages, none of them resident. -/
def absent_file : file_info :=
  { opens := true, isreg := true, st_size := 4097, mincorebuf := [0, 0] }

/-- Three ranges whose two gaps are 10 and 2147483670 bytes. -/
def far_gap : List ra_record := [⟨0, 10⟩, ⟨20, 10⟩, ⟨2147483700, 10⟩]

/-- The ranges of the reduction scenario. -/
def three_ranges : List ra_record := [⟨0, 100⟩, ⟨200, 100⟩, ⟨1000, 100⟩]

/-- Whether byte `b` lies in the range `r`. -/
def covers (r : ra_record) (b : Nat) : Prop := r.offset ≤ b ∧ b < r.offset + r.len

instance (r : ra_record) (b : Nat) : Decidable (covers r b) := by
  unfold covers; infer_instance

/-- A record as it sits in memory: 128 bytes of path, six ranges of two
`uint32_t` each. -/
def ra_disk.wf (d : ra_disk) : Prop :=
  d.filename.length = MAXFL ∧ (∀ b ∈ d.filename, b < 256) ∧ d.data.length = MAXRECS ∧
    ∀ r ∈ d.data, r.offset < 4294967296 ∧ r.len < 4294967296

/-- A record for `/bin/ls` with two ranges in use. -/
def sample_disk : ra_disk :=
  { filename := filename_field (cstr "/bin/ls"),
    data := [⟨0, 12287⟩, ⟨16384, 4294967295⟩, ⟨0, 0⟩, ⟨0, 0⟩, ⟨0, 0⟩, ⟨0, 0⟩] }

/-! ## Notions used to state and prove the theorems -/

/-- The path stored in a node. -/
def fname (m : memory) (a : Nat) : List Nat := (m.node a).filename

/-- One pass of `sort_ra_by_name` seen from the element `x` that the loop is
holding at the current index: the array after the pass and the number of
swaps. -/
def bubble (nm : Nat → List Nat) : Nat → List Nat → List Nat × Nat
  | x, [] => ([x], 0)
  | x, y :: r =>
    if strcmp (nm x) (nm y) > 0 then (y :: (bubble nm x r).1, (bubble nm x r).2 + 1)
    else (x :: (bubble nm y r).1, (bubble nm y r).2)

/-- The number of pairs of slots that are out of order. -/
def inversions (nm : Nat → List Nat) : List Nat → Nat
  | [] => 0
  | x :: r => r.countP (fun y => decide (strcmp (nm x) (nm y) > 0)) + inversions nm r

/-- The nodes `l`, in this order, form a doubly linked list in `m`: `cur`
points to the first, `p` is the `prev` of the first, every `next` points to
the following node, the last `next` is null, and no node is freed. -/
def dll (m : memory) : Option Nat → Option Nat → List Nat → Prop
  | cur, _, [] => cur = none
  | cur, p, a :: l =>
    cur = some a ∧ a ∉ m.freed ∧ (m.node a).prev = p ∧ dll m (m.node a).next (some a) l

/-- Slot `k` of the sorted array `s` is the first of its group of equal
paths. -/
def gfirst (nm : Nat → List Nat) (s : List Nat) (k : Nat) : Prop :=
  k = 0 ∨ nm (s.getD (k - 1) 0) ≠ nm (s.getD k 0)

/-- Slot `k` of `ra` has its final value: the node of the sorted array when
the slot is the first of its group, null otherwise. -/
def final_at (nm : Nat → List Nat) (s : List Nat) (ra : List (Option Nat)) (k : Nat) : Prop :=
  (gfirst nm s k → ra.getD k none = some (s.getD k 0)) ∧
  (¬ gfirst nm s k → ra.getD k none = none)

/-- What `sort_ra_by_name` guarantees about the array `s`: distinct nodes, in
non-decreasing order of path, equal paths in order of address. -/
def sorted_ctx (nm : Nat → List Nat) (s : List Nat) : Prop :=
  s.Nodup ∧ List.Pairwise (fun a b => strcmp (nm a) (nm b) ≤ 0) s ∧
    List.Pairwise (fun a b => nm a = nm b → a < b) s

/-- Invariant of the inner loop of `remove_dupes` at `(i, j)`. -/
def inner_inv (nm : Nat → List Nat) (s : List Nat) (i j : Nat) (ra : List (Option Nat)) : Prop :=
  ra.length = s.length ∧ i < j ∧ j ≤ s.length ∧ gfirst nm s i ∧
  (∀ k, k < i → final_at nm s ra k) ∧ ra.getD i none = some (s.getD i 0) ∧
  (∀ k, i < k → k < j → ra.getD k none = none ∧ nm (s.getD k 0) = nm (s.getD i 0)) ∧
  (∀ k, j ≤ k → k < s.length → ra.getD k none = some (s.getD k 0))

/-- Invariant of the outer loop of `remove_dupes` at `i`: either the slots
from `i` on are untouched and `i` starts a group, or every slot is final and
the slots from `i` on are null. -/
def outer_inv (nm : Nat → List Nat) (s : List Nat) (i : Nat) (ra : List (Option Nat)) : Prop :=
  ra.length = s.length ∧
  ((i < s.length ∧ gfirst nm s i ∧ (∀ k, k < i → final_at nm s ra k) ∧
      (∀ k, i ≤ k → k < s.length → ra.getD k none = some (s.getD k 0))) ∨
   ((∀ k, k < s.length → final_at nm s ra k) ∧
      (∀ k, i ≤ k → k < s.length → ra.getD k none = none)))

/-- The memory holds the list `l` from `first`, in ascending order of address;
its nodes are the ones the array still points to; the paths are `nm`. -/
def mem_inv (nm : Nat → List Nat) (s : List Nat) (first : Option Nat) (ra : List (Option Nat))
    (m : memory) (l : List Nat) : Prop :=
  dll m first none l ∧ List.Pairwise (fun a b => a < b) l ∧
  (∀ x, x ∈ l ↔ ∃ k, k < s.length ∧ ra.getD k none = some x) ∧
  (∀ a, fname m a = nm a)

/-- What collection leaves behind: `ra[i]` is the node of address `i`, nothing
is freed, and the nodes are chained in this order by `prev` and `next`. -/
def collected (c : collector) : Prop :=
  c.ra = List.range c.ra.length ∧ c.mem.freed = [] ∧
  ∀ i, i < c.ra.length →
    (c.mem.node i).prev = (if i = 0 then none else some (i - 1)) ∧
    (c.mem.node i).next = (if i + 1 < c.ra.length then some (i + 1) else none)

/-! ## The path field of a node -/

/-- The offset of the member `data` in `struct ra_struct` and in
`struct ra_disk`: `filename`, an array of `MAXFL` bytes, is the first member
and `data` follows it directly. -/
def DATA_OFFSET : Nat := MAXFL

/-- The bytes that `strcpy(dest, s)` writes from `dest` on: the bytes of `s`
and the terminating NUL. -/
def strcpy_bytes (s : List Nat) : List Nat := s ++ [0]

/-- The offsets from `dest` that `strcpy(dest, s)` writes. -/
def strcpy_touched (s : List Nat) : List Nat := List.range (strcpy_bytes s).length

/-- A path of 128 bytes: a slash and 127 times the letter a. -/
def path128 : List Nat := cstr "/" ++ List.replicate 127 97

/-- A trace line that opens `path128`. -/
def line128 : List Nat := cstr "open (path=\"" ++ path128 ++ cstr "\")\n"

/-- A regular file of two pages (8191 bytes): page 0 resident, page 1 not. The
only maximal run of resident pages is page 0, bytes 0 to 4096. -/
def one_run : file_info :=
  { opens := true, isreg := true, st_size := 8191, mincorebuf := [1, 0] }

/-- The same file with page 1 resident and page 0 not: the only run reaches
the end of the file. -/
def last_run : file_info :=
  { opens := true, isreg := true, st_size := 8191, mincorebuf := [0, 1] }

/-- The candidate ranges the residency scan leaves: the slots of `record`
below `rcount`. -/
def scan_ranges (f : file_info) : Option (List ra_record) :=
  (scan f).map (fun s => s.record.take s.rcount)

/-! ## readahead_one -/

/-- The function `readahead_one` on the record `rd[index]`: the calls
`readahead(fd, offset, len)` it makes, as pairs `(offset, len)` in order.
`noatime_ok` says whether `open` with `O_RDONLY|O_NOATIME` succeeds, `plain_ok`
whether the second `open` with `O_RDONLY` does. When both fail the function
prints a message and returns. -/
def readahead_one (d : ra_disk) (noatime_ok plain_ok : Bool) : List (Nat × Nat) :=
  if !noatime_ok && !plain_ok then []
  else
    (List.range MAXRECS).filterMap (fun i =>
      if (rec_at d.data i).len ≠ 0 then some ((rec_at d.data i).offset, (rec_at d.data i).len)
      else none)

/-! ## Replay workers -/

/-- The state the four workers share and leave behind: `cursor`, for each
worker whether it has left its loop, and the calls `readahead_one(index)` made
so far as pairs `(worker, index)` in the order of the fetch-and-add steps that
claimed them. -/
structure replay where
  cursor : Nat
  finished : List Bool
  calls : List (Nat × Nat)
deriving DecidableEq, Repr

/-- The state when the workers are created: `cursor = 0`, nobody finished. -/
def replay.start (workers : Nat) : replay :=
  { cursor := 0, finished := List.replicate workers false, calls := [] }

/-- One iteration of `while (1)` in `one_thread`, run by worker `w`:
`mine = __sync_fetch_and_add(&cursor, 1)` as one atomic step on the
`unsigned int` cursor, then `readahead_one(mine)` when `mine < total_files`
and `break` otherwise. A worker that has returned takes no step. -/
def one_thread_step (total_files : Nat) (s : replay) (w : Nat) : replay :=
  if s.finished.getD w true then s
  else
    let mine := s.cursor
    let cursor1 := (s.cursor + 1) % 4294967296
    if mine < total_files then
      { cursor := cursor1, finished := s.finished, calls := s.calls ++ [(w, mine)] }
    else
      { cursor := cursor1, finished := s.finished.set w true, calls := s.calls }

/-- The four workers of `main` under the interleaving `schedule`: the list of
the workers in the order in which their fetch-and-add steps take place. -/
def run_threads (total_files : Nat) (schedule : List Nat) : replay :=
  schedule.foldl (one_thread_step total_files) (replay.start 4)

/-- Invariant of the replay: the indices claimed so far are `0, 1, …` below
`min cursor M`, the cursor has passed `M` by at most one per finished worker,
and a worker has finished only after the cursor passed `M`. -/
def replay_inv (M : Nat) (s : replay) : Prop :=
  s.calls.map Prod.snd = List.range (min s.cursor M) ∧
  s.cursor ≤ M + s.finished.count true ∧
  (true ∈ s.finished → M < s.cursor) ∧ s.finished.length = 4

/-! ## Ascending range lists -/

/-- The end `offset + len` of a range. -/
def range_end (r : ra_record) : Nat := r.offset + r.len

/-- The range `a` ends at or before the start of `b`. -/
def precedes (a b : ra_record) : Prop := a.offset + a.len ≤ b.offset

/-- The range `a` is contained in the range `b`. -/
def inside (a b : ra_record) : Prop :=
  b.offset ≤ a.offset ∧ a.offset + a.len ≤ b.offset + b.len

instance (a b : ra_record) : Decidable (inside a b) := by
  unfold inside; infer_instance

instance (a b : ra_record) : Decidable (precedes a b) := by
  unfold precedes; infer_instance

/-- A range list that is ascending and non-overlapping, with no end beyond
32 bits. -/
def ascending (l : List ra_record) : Prop :=
  List.Pairwise precedes l ∧ ∀ a ∈ l, a.offset + a.len < 4294967296

/-- The list `B` is ascending, starts where `A` starts, ends where `A` ends,
and every range of `A` is contained in a range of `B`. -/
def refines (A B : List ra_record) : Prop :=
  ascending B ∧
  B.head?.map (fun r => r.offset) = A.head?.map (fun r => r.offset) ∧
  B.getLast?.map range_end = A.getLast?.map range_end ∧
  ∀ a ∈ A, ∃ b ∈ B, inside a b

/-- The gap of the pair at index `i` in the words of the claim:
`next.offset − this.offset − this.length`, as an integer. -/
def spec_gap (record : List ra_record) (i : Nat) : Int :=
  ((rec_at record (i + 1)).offset : Int) - (rec_at record i).offset - (rec_at record i).len

/-- The index `k` is the smallest index of an adjacent pair of the `count`
ranges whose gap is minimal over all adjacent pairs. -/
def earliest_min_gap (record : List ra_record) (count k : Nat) : Prop :=
  k < count - 1 ∧ (∀ i, i < count - 1 → spec_gap record k ≤ spec_gap record i) ∧
    ∀ i, i < k → spec_gap record k < spec_gap record i

instance (record : List ra_record) (count k : Nat) :
    Decidable (earliest_min_gap record count k) := by
  unfold earliest_min_gap; infer_instance

/-- Seven ranges with page-aligned offsets below 2^32 whose gaps are
1073737728 bytes at index 0 and 536870912 bytes at every later index. -/
def wide_gaps7 : List ra_record :=
  [⟨0, 4096⟩, ⟨1073741824, 4096⟩, ⟨1610616832, 4096⟩, ⟨2147491840, 4096⟩,
    ⟨2684366848, 4096⟩, ⟨3221241856, 4096⟩, ⟨3758116864, 4096⟩]

/-- Five ranges whose gaps are 900, 100, 100 and 3500 bytes. -/
def tied_gaps : List ra_record := [⟨0, 100⟩, ⟨1000, 100⟩, ⟨1200, 100⟩, ⟨1400, 100⟩, ⟨5000, 10⟩]

/-! # Theorems -/

/-! ## reduce_blocks -/

theorem merge_record_count (o : copy_order) (record : List ra_record) (count t : Nat) :
    (merge_record o record count t).2 = count - 1 := rfl

theorem copy_slots_length (dst src : Nat) :
    ∀ (ks : List Nat) (a : List ra_record),
      (ks.foldl (copy_slot dst src) a).length = a.length := by
  intro ks
  induction ks with
  | nil => intro a; rfl
  | cons k ks ih => intro a; rw [List.foldl_cons, ih]; simp [copy_slot]

theorem array_copy_length (o : copy_order) (a : List ra_record) (dst src n : Nat) :
    (array_copy o a dst src n).length = a.length := by
  cases o <;> exact copy_slots_length dst src _ a

theorem merge_record_length (o : copy_order) (record : List ra_record) (count t : Nat) :
    (merge_record o record count t).1.length = record.length := by
  simp [merge_record, array_copy_length]

theorem reduce_loop_result (o : copy_order) (target : Nat) :
    ∀ (fuel : Nat) (record : List ra_record) (count : Nat), count ≤ target + fuel →
      ∃ r, reduce_loop o target fuel record count = some (r, min count target) ∧
        r.length = record.length ∧ (count ≤ target → r = record) := by
  intro fuel
  induction fuel with
  | zero =>
    intro record count h
    have hc : ¬ count > target := by omega
    exact ⟨record, by simp [reduce_loop, hc]; omega, rfl, fun _ => rfl⟩
  | succ fuel ih =>
    intro record count h
    by_cases hc : count > target
    · obtain ⟨r, hr, hl, _⟩ := ih (merge_record o record count (smallest_gap record count)).1
        (merge_record o record count (smallest_gap record count)).2
        (by rw [merge_record_count]; omega)
      refine ⟨r, ?_, by rw [hl, merge_record_length], fun h' => absurd h' (by omega)⟩
      simp only [reduce_loop, hc, if_true]
      rw [hr, merge_record_count]
      congr 2
      omega
    · exact ⟨record, by simp [reduce_loop, hc]; omega, rfl, fun _ => rfl⟩

/-- C1: for every order in which `memcpy` copies, every array `record` of 4096
slots and every count `N ≤ 4096`, `reduce_blocks` with target `MAXRECS = 6`
returns (the loop ends within its bound), the count returned is at most 6, it
is `N` with the array untouched when `N ≤ 6`, and it is exactly 6 when
`N > 6`. -/
theorem reduce_blocks_cap (o : copy_order) (record : List ra_record) (N : Nat)
    (hlen : record.length = 4096) (hN : N ≤ 4096) :
    ∃ r c, reduce_blocks o record N MAXRECS = some (r, c) ∧ c ≤ 6 ∧ r.length = 4096 ∧
      c ≤ N ∧ (N ≤ 6 → r = record ∧ c = N) ∧ (6 < N → c = 6) := by
  obtain ⟨r, hr, hl, hsame⟩ := reduce_loop_result o MAXRECS N record N (by omega)
  refine ⟨r, min N MAXRECS, hr, ?_, by rw [hl, hlen], ?_, ?_, ?_⟩
  · simp [MAXRECS]
  · exact Nat.min_le_left _ _
  · intro h
    exact ⟨hsame (by simpa [MAXRECS] using h), by simp [MAXRECS]; omega⟩
  · intro h
    simp [MAXRECS]; omega

/-- Witness of C1: the zeroed array of 4096 slots with 7 ranges in use. -/
theorem reduce_blocks_cap_witness :
    (List.replicate 4096 ra_record.zero).length = 4096 ∧ 7 ≤ 4096 ∧
    ∃ r c, reduce_blocks copy_order.descending (List.replicate 4096 ra_record.zero) 7 MAXRECS =
        some (r, c) ∧ c ≤ 6 ∧
      r.length = 4096 ∧ c ≤ 7 ∧ (7 ≤ 6 → r = List.replicate 4096 ra_record.zero ∧ c = 7) ∧
      (6 < 7 → c = 6) :=
  ⟨List.length_replicate _ _, by decide,
    reduce_blocks_cap copy_order.descending _ 7 (List.length_replicate _ _) (by decide)⟩

/-- C2 (counterexample to the claim as stated): the ranges `wide_gaps` are
ascending and non-overlapping with every value below 2^32, their gaps are
1073737728 bytes at index 0 and 536870912 bytes at index 1, and `smallest_gap`
returns index 0, which is not an index of minimal gap: no gap is below the
bound `maxgap = 1024*1024*512` the search starts from. The same happens with
the seven ranges `wide_gaps7`. On `far_gap`, whose gaps are 10 bytes at index 0
and 2147483670 bytes at index 1, it returns index 1: as an `int` the second
gap is negative. -/
theorem smallest_gap_wide_gaps :
    smallest_gap wide_gaps 3 = 0 ∧
    gap_at wide_gaps 0 = 1073737728 ∧ gap_at wide_gaps 1 = 536870912 ∧
    List.Pairwise (fun a b => a.offset + a.len ≤ b.offset) wide_gaps ∧
    (∀ r ∈ wide_gaps, r.offset < 4294967296 ∧ r.len < 4294967296) ∧
    ¬ earliest_min_gap wide_gaps 3 (smallest_gap wide_gaps 3) ∧
    earliest_min_gap wide_gaps 3 1 ∧
    smallest_gap wide_gaps7 7 = 0 ∧
    List.Pairwise (fun a b => a.offset + a.len ≤ b.offset) wide_gaps7 ∧
    (∀ r ∈ wide_gaps7, r.offset < 4294967296 ∧ r.len < 4294967296) ∧
    ¬ earliest_min_gap wide_gaps7 7 (smallest_gap wide_gaps7 7) ∧
    earliest_min_gap wide_gaps7 7 1 ∧
    smallest_gap far_gap 3 = 1 ∧
    (far_gap.getD 1 default).offset - (far_gap.getD 0 default).offset
      - (far_gap.getD 0 default).len = 10 ∧
    (far_gap.getD 2 default).offset - (far_gap.getD 1 default).offset
      - (far_gap.getD 1 default).len = 2147483670 ∧
    gap_at far_gap 1 = -2147483626 ∧
    List.Pairwise (fun a b => a.offset + a.len ≤ b.offset) far_gap ∧
    (∀ r ∈ far_gap, r.offset < 4294967296 ∧ r.len < 4294967296) ∧
    ¬ earliest_min_gap far_gap 3 (smallest_gap far_gap 3) ∧
    earliest_min_gap far_gap 3 0 := by
  decide

/-- Where the gap of the claim is not negative and below 2^31, the `int` the
source computes is that gap. -/
theorem gap_at_spec_gap (record : List ra_record) (i : Nat)
    (h0 : 0 ≤ spec_gap record i) (h1 : spec_gap record i < 2147483648) :
    gap_at record i = spec_gap record i := by
  unfold gap_at i32 u32
  unfold spec_gap at h0 h1 ⊢
  split_ifs <;> omega

theorem smallest_gap_range (record : List ra_record) (count : Nat) :
    ∀ n : Nat,
      ((List.range n).foldl (smallest_gap_step record count) (0, 536870912) =
          (0, 536870912) ∧
        ∀ i, i < n → i + 1 < count → (536870912 : Int) ≤ gap_at record i) ∨
      (∃ k, (List.range n).foldl (smallest_gap_step record count) (0, 536870912) =
          (k, gap_at record k) ∧ k < n ∧ k + 1 < count ∧ gap_at record k < 536870912 ∧
        (∀ i, i < n → i + 1 < count → gap_at record k ≤ gap_at record i) ∧
        ∀ i, i < k → gap_at record k < gap_at record i) := by
  intro n
  induction n with
  | zero =>
    left
    exact ⟨rfl, fun i hi => absurd hi (Nat.not_lt_zero i)⟩
  | succ n ih =>
    rw [List.range_succ, List.foldl_append, List.foldl_cons, List.foldl_nil]
    rcases ih with ⟨e, h⟩ | ⟨k, e, hk, hkc, hlt, hmin, hfirst⟩
    · rw [e]
      unfold smallest_gap_step
      by_cases hc : n + 1 < count
      · rw [if_pos hc]
        by_cases hg : gap_at record n < 536870912
        · rw [if_pos hg]
          right
          refine ⟨n, rfl, by omega, hc, hg, ?_, ?_⟩
          · intro i hi hic
            rcases Nat.lt_succ_iff_lt_or_eq.1 hi with c | c
            · have := h i c hic
              omega
            · rw [c]
          · intro i hi
            have := h i hi (by omega)
            omega
        · rw [if_neg hg]
          left
          refine ⟨rfl, ?_⟩
          intro i hi hic
          rcases Nat.lt_succ_iff_lt_or_eq.1 hi with c | c
          · exact h i c hic
          · rw [c]; omega
      · rw [if_neg hc]
        left
        refine ⟨rfl, ?_⟩
        intro i hi hic
        rcases Nat.lt_succ_iff_lt_or_eq.1 hi with c | c
        · exact h i c hic
        · omega
    · rw [e]
      unfold smallest_gap_step
      right
      by_cases hc : n + 1 < count
      · rw [if_pos hc]
        by_cases hg : gap_at record n < gap_at record k
        · rw [if_pos hg]
          refine ⟨n, rfl, by omega, hc, by omega, ?_, ?_⟩
          · intro i hi hic
            rcases Nat.lt_succ_iff_lt_or_eq.1 hi with c | c
            · have := hmin i c hic
              omega
            · rw [c]
          · intro i hi
            have := hmin i hi (by omega)
            omega
        · rw [if_neg hg]
          refine ⟨k, rfl, by omega, hkc, hlt, ?_, hfirst⟩
          intro i hi hic
          rcases Nat.lt_succ_iff_lt_or_eq.1 hi with c | c
          · exact hmin i c hic
          · rw [c]; omega
      · rw [if_neg hc]
        refine ⟨k, rfl, by omega, hkc, hlt, ?_, hfirst⟩
        intro i hi hic
        rcases Nat.lt_succ_iff_lt_or_eq.1 hi with c | c
        · exact hmin i c hic
        · omega

/-- C2 (as amended): for every array `record` and count whose ranges in use are
ascending and non-overlapping, with every gap
`next.offset − this.offset − this.length` below 2^31 and at least one gap
below 2^29 = 1024*1024*512 (so there are at least two ranges), `smallest_gap`
returns the index of an adjacent pair whose gap is minimal over all adjacent
pairs, and every pair at a smaller index has a strictly larger gap: the pair
with the smallest gap, ties broken by earliest index. -/
theorem smallest_gap_earliest_min (record : List ra_record) (count : Nat)
    (hasc : ∀ i, i < count - 1 → precedes (rec_at record i) (rec_at record (i + 1)))
    (hgap : ∀ i, i < count - 1 → spec_gap record i < 2147483648)
    (hsmall : ∃ i, i < count - 1 ∧ spec_gap record i < 536870912) :
    earliest_min_gap record count (smallest_gap record count) := by
  have heq : ∀ i, i < count - 1 → gap_at record i = spec_gap record i := by
    intro i hi
    refine gap_at_spec_gap record i ?_ (hgap i hi)
    have := hasc i hi
    unfold precedes at this
    unfold spec_gap
    omega
  unfold smallest_gap
  rcases smallest_gap_range record count count with ⟨_, h⟩ | ⟨k, e, _, hkc, _, hmin, hfirst⟩
  · obtain ⟨i, hi, hs⟩ := hsmall
    have := h i (by omega) (by omega)
    rw [heq i hi] at this
    omega
  · rw [e]
    refine ⟨by simp only; omega, ?_, ?_⟩
    · intro i hi
      have := hmin i (by omega) (by omega)
      rw [heq k (by omega), heq i hi] at this
      exact this
    · intro i hi
      have := hfirst i hi
      rw [heq k (by omega), heq i (by omega)] at this
      exact this

/-- Witness of C2: on `tied_gaps`, whose gaps are 900, 100, 100 and 3500
bytes, the index returned is 1, the earlier of the two pairs 100 bytes
apart. -/
theorem smallest_gap_earliest_min_witness :
    (∀ i, i < 5 - 1 → precedes (rec_at tied_gaps i) (rec_at tied_gaps (i + 1))) ∧
    (∀ i, i < 5 - 1 → spec_gap tied_gaps i < 2147483648) ∧
    (∃ i, i < 5 - 1 ∧ spec_gap tied_gaps i < 536870912) ∧
    smallest_gap tied_gaps 5 = 1 ∧
    earliest_min_gap tied_gaps 5 (smallest_gap tied_gaps 5) :=
  ⟨by decide, by decide, ⟨1, by decide, by decide⟩, by decide,
    smallest_gap_earliest_min tied_gaps 5 (by decide) (by decide) ⟨1, by decide, by decide⟩⟩

/-- Five or more ascending, non-overlapping ranges with offsets below 2^31,
the bound of the `int` index the scan of `get_blocks` takes them from, have
every gap below 2^31 and at least one gap below 2^29. -/
theorem small_offsets_gaps (record : List ra_record) (count : Nat) (hcount : 5 ≤ count)
    (hasc : ∀ i, i < count - 1 → precedes (rec_at record i) (rec_at record (i + 1)))
    (hoff : ∀ i, i < count → (rec_at record i).offset < 2147483648) :
    (∀ i, i < count - 1 → spec_gap record i < 2147483648) ∧
    ∃ i, i < count - 1 ∧ spec_gap record i < 536870912 := by
  refine ⟨?_, ?_⟩
  · intro i hi
    have := hoff (i + 1) (by omega)
    unfold spec_gap
    omega
  · have a0 := hasc 0 (by omega)
    have a1 := hasc 1 (by omega)
    have a2 := hasc 2 (by omega)
    have a3 := hasc 3 (by omega)
    have o4 := hoff 4 (by omega)
    unfold precedes at a0 a1 a2 a3
    by_contra hne
    have h0 : ¬ spec_gap record 0 < 536870912 := fun h => hne ⟨0, by omega, h⟩
    have h1 : ¬ spec_gap record 1 < 536870912 := fun h => hne ⟨1, by omega, h⟩
    have h2 : ¬ spec_gap record 2 < 536870912 := fun h => hne ⟨2, by omega, h⟩
    have h3 : ¬ spec_gap record 3 < 536870912 := fun h => hne ⟨3, by omega, h⟩
    unfold spec_gap at h0 h1 h2 h3
    simp only [Nat.reduceAdd, zero_add] at h0 h1 h2 h3 a0 a1 a2 a3
    omega

theorem copy_slots_get_low (dst src j : Nat) (hj : j < dst) :
    ∀ (ks : List Nat) (a : List ra_record),
      (ks.foldl (copy_slot dst src) a)[j]? = a[j]? := by
  intro ks
  induction ks with
  | nil => intro a; rfl
  | cons k ks ih =>
    intro a
    rw [List.foldl_cons, ih, copy_slot, List.getElem?_set_ne (by omega)]

theorem array_copy_get_low (o : copy_order) (a : List ra_record) (dst src n j : Nat)
    (hj : j < dst) : (array_copy o a dst src n)[j]? = a[j]? := by
  cases o <;> exact copy_slots_get_low dst src j hj _ a

theorem array_copy_ascending_get (a : List ra_record) (dst : Nat) :
    ∀ (n : Nat), dst + 1 + n ≤ a.length → ∀ (j : Nat),
      (array_copy copy_order.ascending a dst (dst + 1) n)[j]? =
        if dst ≤ j ∧ j < dst + n then a[j + 1]? else a[j]? := by
  intro n
  induction n with
  | zero =>
    intro _ j
    rw [if_neg (by omega)]
    rfl
  | succ n ih =>
    intro hn j
    have ih2 := ih (by omega)
    simp only [array_copy] at ih2 ⊢
    rw [List.range_succ, List.foldl_append, List.foldl_cons, List.foldl_nil, copy_slot]
    have hlen := copy_slots_length dst (dst + 1) (List.range n) a
    by_cases hjn : j = dst + n
    · subst hjn
      rw [List.getElem?_set_self (by omega), if_pos (by omega), rec_at, List.getD_eq_getElem?_getD,
        ih2, if_neg (by omega)]
      rw [List.getElem?_eq_getElem (by omega), List.getElem?_eq_getElem (by omega)]
      simp only [Option.getD_some]
      congr 2
      omega
    · rw [List.getElem?_set_ne (by omega), ih2]
      by_cases h1 : dst ≤ j ∧ j < dst + n
      · rw [if_pos h1, if_pos (by omega)]
      · rw [if_neg h1, if_neg (by omega)]

theorem merge_record_low (o : copy_order) (record : List ra_record) (count t : Nat)
    (ht : t < record.length) :
    (∀ k, k < t → (merge_record o record count t).1[k]? = record[k]?) ∧
    (merge_record o record count t).1[t]? =
      some { offset := (rec_at record t).offset,
             len := u32 ((rec_at record (t + 1)).offset + (rec_at record (t + 1)).len
                      - (rec_at record t).offset) } := by
  refine ⟨?_, ?_⟩
  · intro k hk
    simp only [merge_record]
    rw [array_copy_get_low _ _ _ _ _ _ (by omega), List.getElem?_set_ne (by omega)]
  · simp only [merge_record]
    rw [array_copy_get_low _ _ _ _ _ _ (by omega), List.getElem?_set_self ht]

theorem merge_record_get (record : List ra_record) (count t : Nat)
    (ht : t + 1 < count) (hc : count ≤ record.length) :
    (∀ k, k < t → (merge_record copy_order.ascending record count t).1[k]? = record[k]?) ∧
    (merge_record copy_order.ascending record count t).1[t]? =
      some { offset := (rec_at record t).offset,
             len := u32 ((rec_at record (t + 1)).offset + (rec_at record (t + 1)).len
                      - (rec_at record t).offset) } ∧
    (∀ k, t < k → k + 1 < count →
      (merge_record copy_order.ascending record count t).1[k]? = record[k + 1]?) := by
  obtain ⟨h1, h2⟩ := merge_record_low copy_order.ascending record count t (by omega)
  refine ⟨h1, h2, ?_⟩
  intro k hk hk2
  simp only [merge_record]
  rw [array_copy_ascending_get _ _ _ (by simp; omega), if_pos (by omega),
    List.getElem?_set_ne (by omega)]

theorem smallest_gap_fold (record : List ra_record) (count : Nat) :
    ∀ (l : List Nat) (s : Nat × Int), s.1 + 1 < count →
      (l.foldl (smallest_gap_step record count) s).1 + 1 < count := by
  intro l
  induction l with
  | nil => intro s h; exact h
  | cons i l ih =>
    intro s h
    rw [List.foldl_cons]
    apply ih
    unfold smallest_gap_step
    split_ifs <;> assumption

theorem smallest_gap_lt (record : List ra_record) (count : Nat) (h : 2 ≤ count) :
    smallest_gap record count + 1 < count :=
  smallest_gap_fold record count _ _ (by simpa using h)

theorem u32_lt (x : Int) : u32 x < 4294967296 := by
  unfold u32; omega

theorem u32_end (a b : Nat) : (a + u32 ((b : Int) - a)) % 4294967296 = b % 4294967296 := by
  unfold u32; omega

theorem u32_exact (a b : Nat) (h1 : a ≤ b) (h2 : b < 4294967296) : a + u32 ((b : Int) - a) = b := by
  unfold u32; omega

/-- One reduction step `merge_record(record, count, t)` on a pair inside the
array when `memcpy` copies in ascending order of address, which is what
`memmove` gives: the count is `count - 1`, the slots below `t` are unchanged,
slot `t` holds a range with the first range's offset whose end `offset + len`
is the second range's end (modulo 2^32, and exactly when that end does not
wrap), and the slots `t + 2 … count - 1` have moved down by one. -/
theorem merge_record_shift (record : List ra_record) (count t : Nat)
    (ht : t + 1 < count) (hc : count ≤ record.length) :
    smallest_gap record count + 1 < count ∧
    (merge_record copy_order.ascending record count t).2 = count - 1 ∧
    (merge_record copy_order.ascending record count t).1.length = record.length ∧
    (∀ k, k < t → (merge_record copy_order.ascending record count t).1[k]? = record[k]?) ∧
    (∃ m, (merge_record copy_order.ascending record count t).1[t]? = some m ∧
      m.offset = (rec_at record t).offset ∧ m.len < 4294967296 ∧
      (m.offset + m.len) % 4294967296 =
        ((rec_at record (t + 1)).offset + (rec_at record (t + 1)).len) % 4294967296 ∧
      ((rec_at record t).offset ≤ (rec_at record (t + 1)).offset + (rec_at record (t + 1)).len →
        (rec_at record (t + 1)).offset + (rec_at record (t + 1)).len < 4294967296 →
        m.offset + m.len = (rec_at record (t + 1)).offset + (rec_at record (t + 1)).len)) ∧
    (∀ k, t < k → k + 1 < count →
      (merge_record copy_order.ascending record count t).1[k]? = record[k + 1]?) := by
  obtain ⟨h1, h2, h3⟩ := merge_record_get record count t ht hc
  refine ⟨smallest_gap_lt record count (by omega), rfl, merge_record_length _ _ _ _, h1,
    ⟨_, h2, rfl, u32_lt _, ?_, ?_⟩, h3⟩
  · have := u32_end (rec_at record t).offset
      ((rec_at record (t + 1)).offset + (rec_at record (t + 1)).len)
    simpa using this
  · intro ha hb
    have := u32_exact (rec_at record t).offset
      ((rec_at record (t + 1)).offset + (rec_at record (t + 1)).len) ha hb
    simpa using this

/-- C3 (the code at the failing input): the scan of the file `seven_runs`
leaves seven ranges, `smallest_gap` picks index 0, and `merge_record` then
copies the `7 - 0 - 2 = 5` slots 2 … 6 onto the slots 1 … 5 with `memcpy`,
source and destination overlapping. With a copy in descending order of address
the count is lowered to 6 and slot 0 holds the merged range `(0, 12287)`, but
the slots after it are not the following ranges moved down by one: all five
hold the last range `(49152, 4095)`. A copy in ascending order moves them
down. On the scenario `[(0,100),(200,100),(1000,100)]` with target 2 one slot
is copied, nothing overlaps, and both orders give count 2 with
`[(0,300),(1000,100)]`. -/
theorem merge_record_overlap :
    (scan seven_runs).map (fun s => (s.record.take s.rcount, s.rcount)) =
      some ([⟨0, 4095⟩, ⟨8192, 4095⟩, ⟨16384, 4095⟩, ⟨24576, 4095⟩, ⟨32768, 4095⟩,
        ⟨40960, 4095⟩, ⟨49152, 4095⟩], 7) ∧
    (scan seven_runs).map (fun s => smallest_gap s.record s.rcount) = some 0 ∧
    (scan seven_runs).map (fun s =>
        ((merge_record copy_order.descending s.record s.rcount 0).1.take 6,
         (merge_record copy_order.descending s.record s.rcount 0).2)) =
      some ([⟨0, 12287⟩, ⟨49152, 4095⟩, ⟨49152, 4095⟩, ⟨49152, 4095⟩, ⟨49152, 4095⟩,
        ⟨49152, 4095⟩], 6) ∧
    (scan seven_runs).map (fun s =>
        ((merge_record copy_order.ascending s.record s.rcount 0).1.take 6,
         (merge_record copy_order.ascending s.record s.rcount 0).2)) =
      some ([⟨0, 12287⟩, ⟨16384, 4095⟩, ⟨24576, 4095⟩, ⟨32768, 4095⟩, ⟨40960, 4095⟩,
        ⟨49152, 4095⟩], 6) ∧
    smallest_gap three_ranges 3 = 0 ∧
    ∀ o : copy_order, (reduce_blocks o three_ranges 3 2).map (fun r => (r.1.take r.2, r.2)) =
      some ([⟨0, 300⟩, ⟨1000, 100⟩], 2) := by
  refine ⟨by decide, by decide, by decide, by decide, by decide, ?_⟩
  intro o
  cases o <;> decide

/-- C4 (the code at the failing input): for the file `seven_runs` (seven
resident single-page runs, pages 0, 2, …, 12) `get_blocks` returns 1 and stores
six ranges, in whichever order `memcpy` copies; page 12 is resident and byte
53247 is its last byte, inside the file, yet no stored range contains it,
because a run closed inside the loop gets `len = i - 1 - start`, one byte short
of the run. -/
theorem get_blocks_seven_runs :
    get_blocks copy_order.ascending seven_runs (List.replicate 6 ra_record.zero) =
      some (retval.value 1, [⟨0, 12287⟩, ⟨16384, 4095⟩, ⟨24576, 4095⟩, ⟨32768, 4095⟩,
        ⟨40960, 4095⟩, ⟨49152, 4095⟩]) ∧
    get_blocks copy_order.descending seven_runs (List.replicate 6 ra_record.zero) =
      some (retval.value 1, [⟨0, 12287⟩, ⟨49152, 4095⟩, ⟨49152, 4095⟩, ⟨49152, 4095⟩,
        ⟨49152, 4095⟩, ⟨49152, 4095⟩]) ∧
    seven_runs.mincorebuf.getD (53247 / 4096) 0 ≠ 0 ∧ 53247 < seven_runs.st_size ∧
    (∀ r ∈ [(⟨0, 12287⟩ : ra_record), ⟨16384, 4095⟩, ⟨24576, 4095⟩, ⟨32768, 4095⟩,
        ⟨40960, 4095⟩, ⟨49152, 4095⟩], ¬ covers r 53247) ∧
    ∀ r ∈ [(⟨0, 12287⟩ : ra_record), ⟨49152, 4095⟩, ⟨49152, 4095⟩, ⟨49152, 4095⟩,
        ⟨49152, 4095⟩, ⟨49152, 4095⟩], ¬ covers r 53247 := by
  decide

/-- C8 (the code at the failing input): for the regular file `absent_file`,
whose two pages are both reported absent, `get_blocks` reaches its closing
brace without a `return` statement: it hands back no value, and in particular
not the value 0. -/
theorem get_blocks_absent_file :
    ∀ o : copy_order,
      get_blocks o absent_file (List.replicate 6 ra_record.zero) =
        some (retval.missing, List.replicate 6 ra_record.zero) ∧
      (∀ p, p ∈ absent_file.mincorebuf → p = 0) ∧
      get_blocks o absent_file (List.replicate 6 ra_record.zero) ≠
        some (retval.value 0, List.replicate 6 ra_record.zero) := by
  intro o
  cases o <;> decide

/-- C10 (the code at the failing input): on a line without a double quote
`strchr` is null, `start = NULL + 1` differs from `buf`, the `continue` is not
taken and `strrchr` reads through `start`; on a line with one double quote
`strrchr` is null and `len - start` is no length. Neither line is skipped: the
collector faults and leaves no candidate list. -/
theorem collect_malformed_line :
    extract_filename (cstr "open\n") = line_result.fault ∧
    extract_filename (cstr "open \"/bin/ls\n") = line_result.fault ∧
    (collect [cstr "open\n"] collector.init).isNone = true ∧
    (collect [cstr "open \"/bin/ls\n"] collector.init).isNone = true := by
  decide

/-- C7 (the code at the failing input): with a trace of one open of `/bin/ls`
and a system where the path cannot be opened, `get_blocks` returns 0 for the
only candidate, yet the pack holds its record, with six empty ranges: the node
is the head, it has no `prev`, and `first_ra` still points to it. -/
theorem learned_pack_keeps_head :
    ∀ o : copy_order,
      get_blocks o (nofile (cstr "/bin/ls")) (List.replicate 6 ra_record.zero) =
        some (retval.value 0, List.replicate 6 ra_record.zero) ∧
      learned_pack o nofile [cstr "open (path=\"/bin/ls\")\n"] =
        some [⟨filename_field (cstr "/bin/ls"), List.replicate 6 ⟨0, 0⟩⟩] := by
  intro o
  cases o <;> decide

/-! ## Trace lines -/

theorem strchr_first (pre rest : List Nat) (c : Nat) (h : c ∉ pre) :
    strchr (pre ++ c :: rest) c = some pre.length := by
  induction pre with
  | nil => simp [strchr]
  | cons x pre ih =>
    have hx : x ≠ c := fun e => h (by simp [e])
    have hp : c ∉ pre := fun e => h (by simp [e])
    simp [strchr, hx, ih hp]

theorem strrchr_none (post : List Nat) (c : Nat) (h : c ∉ post) : strrchr post c = none := by
  induction post with
  | nil => simp [strrchr]
  | cons x post ih =>
    have hx : x ≠ c := fun e => h (by simp [e])
    have hp : c ∉ post := fun e => h (by simp [e])
    simp [strrchr, hx, ih hp]

theorem strrchr_last (mid post : List Nat) (c : Nat) (h : c ∉ post) :
    strrchr (mid ++ c :: post) c = some mid.length := by
  induction mid with
  | nil => simp [strrchr, strrchr_none post c h]
  | cons x mid ih => simp [strrchr, ih]

theorem extract_filename_split (pre mid post : List Nat) (h1 : 34 ∉ pre) (h2 : 34 ∉ post)
    (h3 : (pre ++ 34 :: (mid ++ 34 :: post)).head? ≠ some 35) :
    extract_filename (pre ++ 34 :: (mid ++ 34 :: post)) = line_result.extracted mid := by
  unfold extract_filename
  rw [if_neg h3]
  simp only [line_start, strchr_first pre _ 34 h1]
  rw [if_neg (by simp)]
  have hd : List.drop (pre.length + 1) (pre ++ 34 :: (mid ++ 34 :: post)) = mid ++ 34 :: post := by
    rw [show pre ++ 34 :: (mid ++ 34 :: post) = (pre ++ [34]) ++ (mid ++ 34 :: post) by simp]
    exact List.drop_left' (by simp)
  simp only [hd, strrchr_last mid post 34 h2]
  simp

theorem split_first (c : Nat) : ∀ l : List Nat, c ∈ l →
    ∃ pre rest, l = pre ++ c :: rest ∧ c ∉ pre := by
  intro l
  induction l with
  | nil => intro h; simp at h
  | cons x l ih =>
    intro h
    by_cases hx : x = c
    · exact ⟨[], l, by simp [hx], by simp⟩
    · have hl : c ∈ l := by
        rcases List.mem_cons.1 h with e | e
        · exact absurd e.symm hx
        · exact e
      obtain ⟨pre, rest, e, hp⟩ := ih hl
      refine ⟨x :: pre, rest, by simp [e], ?_⟩
      intro hm
      rcases List.mem_cons.1 hm with e' | e'
      · exact hx e'.symm
      · exact hp e'

theorem split_last (c : Nat) : ∀ l : List Nat, c ∈ l →
    ∃ mid post, l = mid ++ c :: post ∧ c ∉ post := by
  intro l h
  obtain ⟨pre, rest, e, hp⟩ := split_first c l.reverse (by simpa using h)
  refine ⟨rest.reverse, pre.reverse, ?_, by simpa using hp⟩
  have := congrArg List.reverse e
  simpa using this

/-- C9 (as amended): for every line that does not start with `#` (35) and
contains at least two double quotes (34), the line splits as
`pre ++ 34 :: mid ++ 34 :: post` with no double quote in `pre` and none in
`post`, and the collector extracts `mid`: the text strictly between the first
double quote and the last double quote of the line. -/
theorem extract_filename_first_last (line : List Nat)
    (h1 : line.head? ≠ some 35) (h2 : 2 ≤ line.count 34) :
    ∃ pre mid post, line = pre ++ 34 :: (mid ++ 34 :: post) ∧ 34 ∉ pre ∧ 34 ∉ post ∧
      extract_filename line = line_result.extracted mid := by
  have hm : 34 ∈ line := List.count_pos_iff.1 (by omega)
  obtain ⟨pre, rest, e, hp⟩ := split_first 34 line hm
  have hc : line.count 34 = rest.count 34 + 1 := by
    rw [e, List.count_append, List.count_cons_self, List.count_eq_zero_of_not_mem hp]
    omega
  have hr : 34 ∈ rest := List.count_pos_iff.1 (by omega)
  obtain ⟨mid, post, e2, hq⟩ := split_last 34 rest hr
  subst e2
  subst e
  exact ⟨pre, mid, post, rfl, hp, hq, extract_filename_split pre mid post hp hq h1⟩

/-- Witness of C9: a line of the scenario. -/
theorem extract_filename_first_last_witness :
    ((cstr "open (path=\"/bin/ls\")\n").head? ≠ some 35 ∧
      2 ≤ (cstr "open (path=\"/bin/ls\")\n").count 34) ∧
    ∃ pre mid post, cstr "open (path=\"/bin/ls\")\n" = pre ++ 34 :: (mid ++ 34 :: post) ∧
      34 ∉ pre ∧ 34 ∉ post ∧
      extract_filename (cstr "open (path=\"/bin/ls\")\n") = line_result.extracted mid :=
  ⟨⟨by decide, by decide⟩, extract_filename_first_last _ (by decide) (by decide)⟩

/-- C9 (counterexample to the claim as stated): the line made of `open`, a
quoted `a` and a quoted `b` does not start with `#` and has four double
quotes; the text strictly between the first double quote and the next one is
`a`, but the collector extracts everything up to the last double quote: `a`,
a double quote, a blank, a double quote and `b`. -/
theorem extract_filename_not_next_quote :
    cstr "open \"a\" \"b\"\n" = cstr "open " ++ 34 :: (cstr "a" ++ 34 :: cstr " \"b\"\n") ∧
    34 ∉ cstr "open " ∧ 34 ∉ cstr "a" ∧
    (cstr "open \"a\" \"b\"\n").head? ≠ some 35 ∧
    extract_filename (cstr "open \"a\" \"b\"\n") = line_result.extracted (cstr "a\" \"b") ∧
    extract_filename (cstr "open \"a\" \"b\"\n") ≠ line_result.extracted (cstr "a") := by
  decide

/-! ## Pack store -/

theorem bytes_u32_bytes (be : Bool) (x : Nat) (h : x < 4294967296) :
    bytes_u32 be (u32_bytes be x) = x := by
  cases be <;> simp [bytes_u32, u32_bytes] <;> omega

theorem u32_bytes_length (be : Bool) (x : Nat) : (u32_bytes be x).length = 4 := by
  cases be <;> simp [u32_bytes]

theorem record_bytes_length (be : Bool) (r : ra_record) : (record_bytes be r).length = 8 := by
  simp [record_bytes, u32_bytes_length]

theorem read_data (be : Bool) (r : ra_record) (rest : List Nat)
    (h : r.offset < 4294967296 ∧ r.len < 4294967296) :
    (⟨bytes_u32 be ((record_bytes be r ++ rest).take 4),
      bytes_u32 be (((record_bytes be r ++ rest).drop 4).take 4)⟩ : ra_record) = r := by
  have h1 : (record_bytes be r ++ rest).take 4 = u32_bytes be r.offset := by
    rw [record_bytes, List.append_assoc]
    exact List.take_left' (u32_bytes_length _ _)
  have h2 : ((record_bytes be r ++ rest).drop 4).take 4 = u32_bytes be r.len := by
    rw [record_bytes, List.append_assoc, List.drop_left' (u32_bytes_length _ _)]
    exact List.take_left' (u32_bytes_length _ _)
  rw [h1, h2, bytes_u32_bytes be _ h.1, bytes_u32_bytes be _ h.2]

theorem disk_bytes_length (be : Bool) (d : ra_disk) (h : d.wf) :
    (disk_bytes be d).length = RECSIZE := by
  obtain ⟨h1, _, h3, _⟩ := h
  have : ∀ l : List ra_record, (l.flatMap (record_bytes be)).length = 8 * l.length := by
    intro l
    induction l with
    | nil => simp
    | cons r l ih => simp [List.flatMap_cons, record_bytes_length, ih]; omega
  simp only [disk_bytes, List.length_append, this, h1, h3, MAXFL, MAXRECS, RECSIZE]

theorem read_data_list (be : Bool) (l : List ra_record) (rest : List Nat)
    (h : ∀ r ∈ l, r.offset < 4294967296 ∧ r.len < 4294967296) :
    (List.range l.length).map (fun k =>
      ({ offset := bytes_u32 be (((l.flatMap (record_bytes be) ++ rest).drop (8 * k)).take 4),
         len := bytes_u32 be (((l.flatMap (record_bytes be) ++ rest).drop (8 * k + 4)).take 4) }
        : ra_record)) = l := by
  induction l with
  | nil => simp
  | cons r l ih =>
    rw [List.length_cons, List.range_succ_eq_map, List.map_cons, List.map_map]
    have hr := h r (by simp)
    have hl := ih (fun x hx => h x (by simp [hx]))
    congr 1
    · simp only [List.flatMap_cons, List.append_assoc, Nat.mul_zero, List.drop_zero, Nat.zero_add]
      have := read_data be r (l.flatMap (record_bytes be) ++ rest) hr
      simpa [List.append_assoc] using this
    · refine Eq.trans (List.map_congr_left ?_) hl
      intro k _
      have e1 : ∀ c, List.drop (8 * (k + 1) + c)
          ((r :: l).flatMap (record_bytes be) ++ rest) =
          List.drop (8 * k + c) (l.flatMap (record_bytes be) ++ rest) := by
        intro c
        rw [List.flatMap_cons, List.append_assoc,
          show 8 * (k + 1) + c = 8 + (8 * k + c) by omega, ← List.drop_drop,
          List.drop_left' (record_bytes_length be r)]
      have e0 := e1 0
      simp only [Nat.add_zero] at e0
      simp only [Function.comp, Nat.succ_eq_add_one, e1 4, e0]

theorem read_record_disk_bytes (be : Bool) (d : ra_disk) (h : d.wf) :
    read_record be (disk_bytes be d) = d := by
  obtain ⟨h1, _, h3, h4⟩ := h
  have hd : ∀ c, List.drop (MAXFL + c) (disk_bytes be d) =
      List.drop c (d.data.flatMap (record_bytes be) ++ []) := by
    intro c
    rw [disk_bytes, ← List.drop_drop, List.drop_left' h1, List.append_nil]
  have := read_data_list be d.data [] h4
  rw [h3] at this
  cases d with
  | mk fn data =>
    simp only [read_record, ra_disk.mk.injEq]
    refine ⟨?_, ?_⟩
    · exact List.take_left' h1
    · simp only [Nat.add_assoc, hd]
      exact this

theorem read_records_pack_bytes (be : Bool) (l : List ra_disk) (h : ∀ d ∈ l, d.wf) :
    read_records be l.length (pack_bytes be l) = l := by
  induction l with
  | nil => simp [read_records]
  | cons d l ih =>
    have hd := h d (by simp)
    have e : pack_bytes be (d :: l) = disk_bytes be d ++ pack_bytes be l := by
      simp [pack_bytes, List.flatMap_cons]
    rw [List.length_cons, read_records, e, List.take_left' (disk_bytes_length be d hd),
      List.drop_left' (disk_bytes_length be d hd), read_record_disk_bytes be d hd,
      ih (fun x hx => h x (by simp [hx]))]

theorem pack_bytes_length (be : Bool) (l : List ra_disk) (h : ∀ d ∈ l, d.wf) :
    (pack_bytes be l).length = RECSIZE * l.length := by
  induction l with
  | nil => simp [pack_bytes]
  | cons d l ih =>
    have e : pack_bytes be (d :: l) = disk_bytes be d ++ pack_bytes be l := by
      simp [pack_bytes, List.flatMap_cons]
    rw [e, List.length_append, disk_bytes_length be d (h d (by simp)),
      ih (fun x hx => h x (by simp [hx])), List.length_cons]
    ring

/-- C6: for every byte order, every `N ≤ MAXR = 40000` and every list of `N`
records (each a 128-byte path field and 6 ranges of 32-bit values), the bytes
the pack writer produces have length `176 * N`, and the pack reader reads them
back as `total_files = N` records equal, in the same order, to the ones
written. -/
theorem read_pack_write (be : Bool) (l : List ra_disk)
    (hN : l.length ≤ MAXR) (hwf : ∀ d ∈ l, d.wf) :
    (pack_bytes be l).length = 176 * l.length ∧
    read_pack be (pack_bytes be l) = (l, l.length) := by
  have hlen := pack_bytes_length be l hwf
  refine ⟨by simpa [RECSIZE] using hlen, ?_⟩
  have ht : min ((pack_bytes be l).length / RECSIZE) MAXR = l.length := by
    rw [hlen, Nat.mul_div_cancel_left _ (by decide : 0 < RECSIZE)]
    exact Nat.min_eq_left hN
  simp only [read_pack, ht, read_records_pack_bytes be l hwf]

set_option maxRecDepth 4096 in
theorem sample_disk_wf : ∀ d ∈ [sample_disk, sample_disk], d.wf := by
  unfold ra_disk.wf
  decide

/-- Witness of C6: two records written and read back, in either byte order. -/
theorem read_pack_write_witness :
    ([sample_disk, sample_disk].length ≤ MAXR ∧ ∀ d ∈ [sample_disk, sample_disk], d.wf) ∧
    (pack_bytes true [sample_disk, sample_disk]).length = 176 * 2 ∧
    read_pack true (pack_bytes true [sample_disk, sample_disk]) =
      ([sample_disk, sample_disk], 2) :=
  ⟨⟨by decide, sample_disk_wf⟩, read_pack_write true _ (by decide) sample_disk_wf⟩

/-! ## strcmp is a total order on strings -/

theorem strcmp_self (a : List Nat) : strcmp a a = 0 := by
  induction a with
  | nil => rfl
  | cons x a ih => simp [strcmp, ih]

theorem strcmp_eq_zero : ∀ a b : List Nat, strcmp a b = 0 → a = b := by
  intro a
  induction a with
  | nil => intro b h; cases b <;> simp_all [strcmp]
  | cons x a ih =>
    intro b h
    cases b with
    | nil => simp [strcmp] at h
    | cons y b =>
      simp only [strcmp] at h
      split_ifs at h with h1 h2
      · omega
      · have : x = y := by omega
        rw [this, ih b h]

theorem strcmp_swap : ∀ a b : List Nat, strcmp b a = - strcmp a b := by
  intro a
  induction a with
  | nil => intro b; cases b <;> simp [strcmp]
  | cons x a ih =>
    intro b
    cases b with
    | nil => simp [strcmp]
    | cons y b =>
      simp only [strcmp]
      split_ifs <;> first | omega | exact ih b

theorem strcmp_trans : ∀ a b c : List Nat, strcmp a b ≤ 0 → strcmp b c ≤ 0 → strcmp a c ≤ 0 := by
  intro a
  induction a with
  | nil => intro b c _ _; cases c <;> simp [strcmp]
  | cons x a ih =>
    intro b c h1 h2
    cases b with
    | nil => simp [strcmp] at h1
    | cons y b =>
      cases c with
      | nil => simp [strcmp] at h2
      | cons z c =>
        simp only [strcmp] at h1 h2 ⊢
        split_ifs at h1 h2 ⊢ <;> first | omega | exact ih b c h1 h2

theorem strcmp_ne_zero_of_gt (a b : List Nat) (h : strcmp a b > 0) : a ≠ b := by
  intro e
  rw [e, strcmp_self] at h
  exact absurd h (by decide)

/-! ## sort_ra_by_name -/

theorem getD_append_length (pre : List Nat) (x : Nat) (rest : List Nat) (d : Nat) :
    (pre ++ x :: rest).getD pre.length d = x := by
  induction pre with
  | nil => rfl
  | cons p pre ih => simpa using ih

theorem getD_append_length_succ (pre : List Nat) (x y : Nat) (rest : List Nat) (d : Nat) :
    (pre ++ x :: y :: rest).getD (pre.length + 1) d = y := by
  have := getD_append_length (pre ++ [x]) y rest d
  simpa using this

theorem set_append_length (pre : List Nat) (x v : Nat) (rest : List Nat) :
    (pre ++ x :: rest).set pre.length v = pre ++ v :: rest := by
  simp

theorem sort_pass_bubble (m : memory) :
    ∀ (r pre : List Nat) (x delta : Nat),
      sort_pass m r.length pre.length (pre ++ x :: r) delta =
        (pre ++ (bubble (fname m) x r).1, delta + (bubble (fname m) x r).2) := by
  intro r
  induction r with
  | nil => intro pre x delta; simp [sort_pass, bubble]
  | cons y r ih =>
    intro pre x delta
    have e1 : name_at m (pre ++ x :: y :: r) pre.length = fname m x := by
      rw [name_at, getD_append_length]; rfl
    have e2 : name_at m (pre ++ x :: y :: r) (pre.length + 1) = fname m y := by
      rw [name_at, getD_append_length_succ]; rfl
    simp only [List.length_cons, sort_pass, e1, e2, bubble]
    by_cases h : strcmp (fname m x) (fname m y) > 0
    · have e3 : ((pre ++ x :: y :: r).set pre.length
          ((pre ++ x :: y :: r).getD (pre.length + 1) 0)).set (pre.length + 1)
          ((pre ++ x :: y :: r).getD pre.length 0) = (pre ++ [y]) ++ x :: r := by
        rw [getD_append_length_succ, getD_append_length, set_append_length]
        simp
      have := ih (pre ++ [y]) x (delta + 1)
      simp only [List.length_append, List.length_singleton] at this
      simp only [h, if_true, e3, this]
      simp
      omega
    · have := ih (pre ++ [x]) y delta
      simp only [List.length_append, List.length_singleton, List.append_assoc,
        List.singleton_append] at this
      simp only [h, if_false, this]

theorem sort_pass_eq (m : memory) (ra : List Nat) :
    sort_pass m (ra.length - 1) 0 ra 0 =
      match ra with
      | [] => ([], 0)
      | x :: r => bubble (fname m) x r := by
  cases ra with
  | nil => simp [sort_pass]
  | cons x r =>
    have := sort_pass_bubble m r [] x 0
    simp at this
    simp [this]

theorem bubble_perm (nm : Nat → List Nat) :
    ∀ (r : List Nat) (x : Nat), ((bubble nm x r).1).Perm (x :: r) := by
  intro r
  induction r with
  | nil => intro x; simp [bubble]
  | cons y r ih =>
    intro x
    simp only [bubble]
    split_ifs
    · exact ((ih x).cons y).trans (List.Perm.swap x y r)
    · exact (ih y).cons x

theorem bubble_inversions (nm : Nat → List Nat) :
    ∀ (r : List Nat) (x : Nat),
      inversions nm (bubble nm x r).1 + (bubble nm x r).2 = inversions nm (x :: r) := by
  intro r
  induction r with
  | nil => intro x; simp [bubble, inversions]
  | cons y r ih =>
    intro x
    simp only [bubble]
    split_ifs with h
    · have hyx : ¬ strcmp (nm y) (nm x) > 0 := by
        rw [strcmp_swap (nm x) (nm y)]; omega
      have hc := (bubble_perm nm r x).countP_eq (fun z => decide (strcmp (nm y) (nm z) > 0))
      have := ih x
      simp only [inversions, List.countP_cons, hc, h, hyx, decide_True, decide_False] at this ⊢
      simp at this ⊢
      omega
    · have hc := (bubble_perm nm r y).countP_eq (fun z => decide (strcmp (nm x) (nm z) > 0))
      have := ih y
      simp only [inversions, List.countP_cons, hc, h, decide_False] at this ⊢
      simp at this ⊢
      omega

theorem bubble_zero (nm : Nat → List Nat) :
    ∀ (r : List Nat) (x : Nat), (bubble nm x r).2 = 0 →
      (bubble nm x r).1 = x :: r ∧
      List.Pairwise (fun a b => strcmp (nm a) (nm b) ≤ 0) (x :: r) := by
  intro r
  induction r with
  | nil => intro x _; simp [bubble]
  | cons y r ih =>
    intro x h
    simp only [bubble] at h ⊢
    split_ifs at h ⊢ with hxy
    · simp at h
    · obtain ⟨e, hp⟩ := ih y h
      refine ⟨by rw [e], ?_⟩
      have hle : strcmp (nm x) (nm y) ≤ 0 := by omega
      refine List.Pairwise.cons ?_ hp
      intro z hz
      rcases List.mem_cons.1 hz with e' | e'
      · rw [e']; exact hle
      · exact strcmp_trans _ _ _ hle ((List.pairwise_cons.1 hp).1 z e')

theorem bubble_stable (nm : Nat → List Nat) :
    ∀ (r : List Nat) (x : Nat),
      List.Pairwise (fun a b => nm a = nm b → a < b) (x :: r) →
      List.Pairwise (fun a b => nm a = nm b → a < b) (bubble nm x r).1 := by
  intro r
  induction r with
  | nil => intro x _; simp [bubble]
  | cons y r ih =>
    intro x h
    obtain ⟨hx, hyr⟩ := List.pairwise_cons.1 h
    obtain ⟨hy, hr⟩ := List.pairwise_cons.1 hyr
    simp only [bubble]
    split_ifs with hxy
    · refine List.Pairwise.cons ?_ (ih x (List.Pairwise.cons (fun z hz => hx z (by simp [hz])) hr))
      intro z hz
      rcases List.mem_cons.1 ((bubble_perm nm r x).mem_iff.1 hz) with e | e
      · intro hn
        rw [e] at hn
        rw [hn, strcmp_self] at hxy
        exact absurd hxy (by decide)
      · exact hy z e
    · refine List.Pairwise.cons ?_ (ih y hyr)
      intro z hz
      exact hx z ((bubble_perm nm r y).mem_iff.1 hz)

theorem inversions_le (nm : Nat → List Nat) (l : List Nat) :
    inversions nm l ≤ l.length * l.length := by
  induction l with
  | nil => simp [inversions]
  | cons x r ih =>
    have := List.countP_le_length (fun y => decide (strcmp (nm x) (nm y) > 0)) (l := r)
    simp only [inversions, List.length_cons]
    nlinarith

theorem sort_loop_spec (m : memory) :
    ∀ (fuel : Nat) (ra : List Nat), inversions (fname m) ra < fuel →
      ∃ ra1, sort_loop m fuel ra = some ra1 ∧ ra1.Perm ra ∧
        List.Pairwise (fun a b => strcmp (fname m a) (fname m b) ≤ 0) ra1 ∧
        (List.Pairwise (fun a b => fname m a = fname m b → a < b) ra →
          List.Pairwise (fun a b => fname m a = fname m b → a < b) ra1) := by
  intro fuel
  induction fuel with
  | zero => intro ra h; omega
  | succ fuel ih =>
    intro ra h
    cases ra with
    | nil =>
      exact ⟨[], by simp [sort_loop, sort_pass], List.Perm.refl _, List.Pairwise.nil, fun h => h⟩
    | cons x r =>
      have hp : sort_pass m ((x :: r).length - 1) 0 (x :: r) 0 = bubble (fname m) x r :=
        sort_pass_eq m (x :: r)
      have hinv := bubble_inversions (fname m) r x
      by_cases hd : (bubble (fname m) x r).2 > 0
      · obtain ⟨ra1, h1, h2, h3, h4⟩ := ih (bubble (fname m) x r).1 (by omega)
        refine ⟨ra1, ?_, h2.trans (bubble_perm _ r x), h3,
          fun hs => h4 (bubble_stable _ r x hs)⟩
        simp only [sort_loop, hp, hd, if_true, h1]
      · obtain ⟨e, hs⟩ := bubble_zero (fname m) r x (by omega)
        refine ⟨x :: r, ?_, List.Perm.refl _, hs, fun h => h⟩
        simp only [sort_loop, hp, hd, if_false, e]

theorem sort_ra_by_name_spec (m : memory) (ra : List Nat) :
    ∃ ra1, sort_ra_by_name m ra = some ra1 ∧ ra1.Perm ra ∧
      List.Pairwise (fun a b => strcmp (fname m a) (fname m b) ≤ 0) ra1 ∧
      (List.Pairwise (fun a b => fname m a = fname m b → a < b) ra →
        List.Pairwise (fun a b => fname m a = fname m b → a < b) ra1) :=
  sort_loop_spec m _ ra (Nat.lt_succ_of_le (inversions_le _ ra))

/-! ## Doubly linked lists -/

theorem dll_congr (m m1 : memory) (hf : m1.freed = m.freed) :
    ∀ (l : List Nat) (cur p : Option Nat), (∀ b ∈ l, m1.node b = m.node b) →
      dll m cur p l → dll m1 cur p l := by
  intro l
  induction l with
  | nil => intro cur p _ h; exact h
  | cons a l ih =>
    intro cur p hn h
    obtain ⟨h1, h2, h3, h4⟩ := h
    have ha := hn a (by simp)
    refine ⟨h1, by rw [hf]; exact h2, by rw [ha]; exact h3, ?_⟩
    rw [ha]
    exact ih _ _ (fun b hb => hn b (by simp [hb])) h4

theorem dll_not_freed (m : memory) :
    ∀ (l : List Nat) (cur p : Option Nat), dll m cur p l → ∀ a ∈ l, a ∉ m.freed := by
  intro l
  induction l with
  | nil => intro _ _ _ a ha; simp at ha
  | cons b l ih =>
    intro cur p h a ha
    obtain ⟨_, h2, _, h4⟩ := h
    rcases List.mem_cons.1 ha with e | e
    · rw [e]; exact h2
    · exact ih _ _ h4 a e

theorem dll_free (m : memory) (x : Nat) (l : List Nat) (cur p : Option Nat)
    (h : dll m cur p l) (hx : x ∉ l) : dll (m.free x) cur p l := by
  induction l generalizing cur p with
  | nil => exact h
  | cons a l ih =>
    obtain ⟨h1, h2, h3, h4⟩ := h
    refine ⟨h1, ?_, h3, ih _ _ h4 (fun e => hx (by simp [e]))⟩
    simp only [memory.free, List.mem_cons, not_or]
    exact ⟨fun e => hx (by simp [e]), h2⟩

theorem dll_head (m : memory) (l : List Nat) (cur p : Option Nat) (h : dll m cur p l) :
    cur = l.head? := by
  cases l with
  | nil => exact h
  | cons a l => exact h.1

theorem walk_dll (m : memory) :
    ∀ (l : List Nat) (fuel : Nat) (cur p : Option Nat), dll m cur p l → l.length ≤ fuel →
      walk m fuel cur = some l := by
  intro l
  induction l with
  | nil =>
    intro fuel cur p h _
    have : cur = none := h
    subst this
    cases fuel <;> rfl
  | cons a l ih =>
    intro fuel cur p h hl
    obtain ⟨h1, h2, _, h4⟩ := h
    subst h1
    cases fuel with
    | zero => simp at hl
    | succ fuel =>
      have := ih fuel _ _ h4 (by simpa using hl)
      simp [walk, memory.load, h2, this]

theorem unlink_after_head (m : memory) (a x : Nat) (B : List Nat) (cur p : Option Nat)
    (h : dll m cur p (a :: x :: B)) (hnd : (a :: x :: B).Nodup) :
    ∃ m1, unlink m x = some m1 ∧ dll m1 cur p (a :: B) ∧ m1.freed = m.freed ∧
      (∀ b, b ∉ a :: x :: B → m1.node b = m.node b) ∧
      (∀ b, (m1.node b).filename = (m.node b).filename) ∧
      (∀ b, (m1.node b).data = (m.node b).data) := by
  obtain ⟨h1, h2, h3, h4⟩ := h
  obtain ⟨h5, h6, h7, h8⟩ := h4
  have hax : a ≠ x := by
    intro e; rw [e] at hnd; simp at hnd
  have hxl : m.load x = some (m.node x) := by simp [memory.load, h6]
  cases B with
  | nil =>
    have hnx : (m.node x).next = none := h8
    refine ⟨m.store a { m.node a with next := none }, ?_, ?_, rfl, ?_, ?_, ?_⟩
    · simp [unlink, memory.load, h6, hnx, h7, h2]
    · exact ⟨h1, h2, by simp [memory.store, h3], by simp [memory.store, dll]⟩
    · intro b hb
      have : b ≠ a := fun e => hb (by simp [e])
      simp [memory.store, this]
    · intro b
      by_cases e : b = a <;> simp [memory.store, e]
    · intro b
      by_cases e : b = a <;> simp [memory.store, e]
  | cons nb B =>
    obtain ⟨h9, h10, h11, h12⟩ := h8
    have hnx : (m.node x).next = some nb := h9
    have hxn : x ≠ nb := by
      intro e; rw [e] at hnd; simp at hnd
    have han : a ≠ nb := by
      intro e; rw [e] at hnd; simp at hnd
    have haB : a ∉ B := fun e => by simp [e] at hnd
    have hnB : nb ∉ B := fun e => by simp [e] at hnd
    refine ⟨(m.store nb { m.node nb with prev := some a }).store a
      { m.node a with next := some nb }, ?_, ?_, rfl, ?_, ?_, ?_⟩
    · simp [unlink, memory.load, h6, hnx, h7, h2, h10, memory.store, hxn, han]
    · refine ⟨h1, h2, by simp [memory.store, h3], ?_⟩
      have e1 : ((m.store nb { m.node nb with prev := some a }).store a
          { m.node a with next := some nb }).node a = { m.node a with next := some nb } := by
        simp [memory.store]
      have e2 : ((m.store nb { m.node nb with prev := some a }).store a
          { m.node a with next := some nb }).node nb = { m.node nb with prev := some a } := by
        simp [memory.store, han.symm]
      rw [e1]
      refine ⟨rfl, h10, by rw [e2], ?_⟩
      rw [e2]
      have key : dll ((m.store nb { m.node nb with prev := some a }).store a
          { m.node a with next := some nb }) (m.node nb).next (some nb) B := by
        refine dll_congr m _ (by rfl) B _ _ ?_ h12
        intro b hb
        have hba : b ≠ a := fun e => haB (e ▸ hb)
        have hbn : b ≠ nb := fun e => hnB (e ▸ hb)
        simp [memory.store, hba, hbn]
      exact key
    · intro b hb
      have hba : b ≠ a := fun e => hb (by simp [e])
      have hbn : b ≠ nb := fun e => hb (by simp [e])
      simp [memory.store, hba, hbn]
    · intro b
      by_cases e : b = a
      · subst e; simp [memory.store]
      · by_cases e2 : b = nb
        · subst e2; simp [memory.store, e]
        · simp [memory.store, e, e2]
    · intro b
      by_cases e : b = a
      · subst e; simp [memory.store]
      · by_cases e2 : b = nb
        · subst e2; simp [memory.store, e]
        · simp [memory.store, e, e2]

theorem unlink_dll (m : memory) (x : Nat) :
    ∀ (l : List Nat) (cur p : Option Nat), dll m cur p l → l.Nodup → x ∈ l.tail →
      ∃ m1, unlink m x = some m1 ∧ dll m1 cur p (l.erase x) ∧ m1.freed = m.freed ∧
        (∀ b, b ∉ l → m1.node b = m.node b) ∧
        (∀ b, (m1.node b).filename = (m.node b).filename) ∧
        (∀ b, (m1.node b).data = (m.node b).data) := by
  intro l
  induction l with
  | nil => intro _ _ _ _ hx; simp at hx
  | cons a l ih =>
    intro cur p h hnd hx
    simp only [List.tail_cons] at hx
    have hax : a ≠ x := fun e => by
      rw [e] at hnd; exact (List.nodup_cons.1 hnd).1 hx
    cases l with
    | nil => simp at hx
    | cons y B =>
      by_cases hxy : x = y
      · subst hxy
        obtain ⟨m1, e1, e2, e3, e4, e5, e6⟩ := unlink_after_head m a x B cur p h hnd
        refine ⟨m1, e1, ?_, e3, e4, e5, e6⟩
        have : (a :: x :: B).erase x = a :: B := by
          simp [List.erase_cons, hax]
        rw [this]; exact e2
      · have hxB : x ∈ (y :: B).tail := by
          rcases List.mem_cons.1 hx with e | e
          · exact absurd e hxy
          · exact e
        obtain ⟨h1, h2, h3, h4⟩ := h
        obtain ⟨m1, e1, e2, e3, e4, e5, e6⟩ := ih _ _ h4 (List.nodup_cons.1 hnd).2 hxB
        have hnode : m1.node a = m.node a := e4 a (List.nodup_cons.1 hnd).1
        refine ⟨m1, e1, ?_, e3, fun b hb => e4 b (fun e => hb (by simp [e])), e5, e6⟩
        have : (a :: y :: B).erase x = a :: (y :: B).erase x := by
          rw [List.erase_cons]
          simp [hax]
        rw [this]
        exact ⟨h1, by rw [e3]; exact h2, by rw [hnode]; exact h3, by rw [hnode]; exact e2⟩

/-! ## remove_dupes -/

theorem getD_set_opt (ra : List (Option Nat)) (j k : Nat) (v : Option Nat) (hj : j < ra.length) :
    (ra.set j v).getD k none = if k = j then v else ra.getD k none := by
  simp only [List.getD_eq_getElem?_getD, List.getElem?_set]
  by_cases h : j = k
  · subst h; simp [hj]
  · have : ¬ k = j := fun e => h e.symm
    simp [h, this]

theorem pairwise_getD {R : Nat → Nat → Prop} :
    ∀ (l : List Nat), List.Pairwise R l → ∀ i j, i < j → j < l.length →
      R (l.getD i 0) (l.getD j 0) := by
  intro l h i j hij hj
  have hi : i < l.length := by omega
  have := List.pairwise_iff_getElem.1 h i j hi hj hij
  simpa [List.getD_eq_getElem?_getD, List.getElem?_eq_getElem, hi, hj] using this

theorem nodup_getD_inj (l : List Nat) (h : l.Nodup) (i j : Nat) (hi : i < l.length)
    (hj : j < l.length) (e : l.getD i 0 = l.getD j 0) : i = j := by
  simp only [List.getD_eq_getElem?_getD, List.getElem?_eq_getElem, hi, hj, Option.getD_some] at e
  exact (List.Nodup.getElem_inj_iff h).1 e

theorem mem_tail_of_lt : ∀ (l : List Nat), List.Pairwise (fun a b => a < b) l →
    ∀ a b, a ∈ l → b ∈ l → a < b → b ∈ l.tail := by
  intro l h a b ha hb hab
  cases l with
  | nil => simp at ha
  | cons x t =>
    rcases List.mem_cons.1 hb with e | e
    · have hx := (List.pairwise_cons.1 h).1
      rcases List.mem_cons.1 ha with e2 | e2
      · omega
      · have := hx a e2
        omega
    · exact e

theorem final_at_shape (nm : Nat → List Nat) (s : List Nat) (ra : List (Option Nat)) (k x : Nat)
    (h : final_at nm s ra k) (e : ra.getD k none = some x) : x = s.getD k 0 := by
  by_cases g : gfirst nm s k
  · rw [h.1 g] at e
    exact (Option.some.inj e).symm
  · rw [h.2 g] at e
    exact absurd e (by simp)

theorem final_at_set (nm : Nat → List Nat) (s : List Nat) (ra : List (Option Nat)) (j k : Nat)
    (v : Option Nat) (hj : j < ra.length) (hk : k ≠ j) (h : final_at nm s ra k) :
    final_at nm s (ra.set j v) k := by
  unfold final_at at h ⊢
  rw [getD_set_opt ra j k v hj, if_neg hk]
  exact h

theorem inner_same_name (nm : Nat → List Nat) (s : List Nat) (i j : Nat) (ra : List (Option Nat))
    (h : inner_inv nm s i j ra) (k : Nat) (h1 : i ≤ k) (h2 : k < j) :
    nm (s.getD k 0) = nm (s.getD i 0) := by
  obtain ⟨_, _, _, _, _, _, h7, _⟩ := h
  rcases Nat.eq_or_lt_of_le h1 with e | e
  · rw [e]
  · exact (h7 k e h2).2

theorem inner_final (nm : Nat → List Nat) (s : List Nat) (i j : Nat) (ra : List (Option Nat))
    (h : inner_inv nm s i j ra) : ∀ k, k < j → final_at nm s ra k := by
  intro k hk
  have hsame := inner_same_name nm s i j ra h
  obtain ⟨_, h2, _, h4, h5, h6, h7, _⟩ := h
  rcases Nat.lt_trichotomy k i with c | c | c
  · exact h5 k c
  · subst c
    exact ⟨fun _ => h6, fun g => absurd h4 g⟩
  · have hng : ¬ gfirst nm s k := by
      intro g
      rcases g with g | g
      · omega
      · apply g
        rw [hsame (k - 1) (by omega) (by omega), hsame k (by omega) hk]
    exact ⟨fun g => absurd g hng, fun _ => (h7 k c hk).1⟩

theorem inner_shape (nm : Nat → List Nat) (s : List Nat) (i j : Nat) (ra : List (Option Nat))
    (h : inner_inv nm s i j ra) (k x : Nat) (hk : k < s.length)
    (e : ra.getD k none = some x) : x = s.getD k 0 := by
  by_cases c : k < j
  · exact final_at_shape nm s ra k x (inner_final nm s i j ra h k c) e
  · obtain ⟨_, _, _, _, _, _, _, h8⟩ := h
    rw [h8 k (by omega) hk] at e
    exact (Option.some.inj e).symm

theorem dupes_inner_spec (nm : Nat → List Nat) (s : List Nat) (first : Option Nat)
    (hctx : sorted_ctx nm s) (i : Nat) :
    ∀ (n j : Nat) (ra : List (Option Nat)) (m : memory) (l : List Nat),
      j + n = s.length → inner_inv nm s i j ra → mem_inv nm s first ra m l →
      ∃ i1 ra1 m1 l1, dupes_inner i n j ra m = some (i1, ra1, m1) ∧ i ≤ i1 ∧
        outer_inv nm s (i1 + 1) ra1 ∧ mem_inv nm s first ra1 m1 l1 := by
  intro n
  induction n with
  | zero =>
    intro j ra m l hj hin hm
    have hjn : j = s.length := by omega
    refine ⟨i, ra, m, l, rfl, Nat.le_refl _, ⟨hin.1, Or.inr ⟨?_, ?_⟩⟩, hm⟩
    · intro k hk
      exact inner_final nm s i j ra hin k (by omega)
    · intro k hk1 hk2
      exact (hin.2.2.2.2.2.2.1 k (by omega) (by omega)).1
  | succ n ih =>
    intro j ra m l hj hin hm
    have hfin := inner_final nm s i j ra hin
    have hshape := inner_shape nm s i j ra hin
    have hsame := inner_same_name nm s i j ra hin
    obtain ⟨h1, h2, h3, h4, h5, h6, h7, h8⟩ := hin
    obtain ⟨d1, d2, d3, d4⟩ := hm
    have hjn : j < s.length := by omega
    have hrj : ra.getD j none = some (s.getD j 0) := h8 j (Nat.le_refl _) hjn
    have hal : s.getD i 0 ∈ l := (d3 _).2 ⟨i, by omega, h6⟩
    have hbl : s.getD j 0 ∈ l := (d3 _).2 ⟨j, hjn, hrj⟩
    have hnf := dll_not_freed m l _ _ d1
    have hla : m.load (s.getD i 0) = some (m.node (s.getD i 0)) := by
      rw [memory.load, if_neg (hnf _ hal)]
    have hlb : m.load (s.getD j 0) = some (m.node (s.getD j 0)) := by
      rw [memory.load, if_neg (hnf _ hbl)]
    have hna : (m.node (s.getD i 0)).filename = nm (s.getD i 0) := d4 _
    have hnb : (m.node (s.getD j 0)).filename = nm (s.getD j 0) := d4 _
    by_cases hs : strcmp (nm (s.getD i 0)) (nm (s.getD j 0)) ≠ 0
    · refine ⟨j - 1, ra, m, l, ?_, by omega, ?_, ⟨d1, d2, d3, d4⟩⟩
      · simp only [dupes_inner, h6, hrj, hla, hlb, hna, hnb]
        rw [if_pos hs]
      · have hj1 : j - 1 + 1 = j := by omega
        rw [hj1]
        refine ⟨h1, Or.inl ⟨hjn, Or.inr ?_, hfin, h8⟩⟩
        rw [hsame (j - 1) (by omega) (by omega)]
        intro e
        apply hs
        rw [e, strcmp_self]
    · have hs0 : strcmp (nm (s.getD i 0)) (nm (s.getD j 0)) = 0 := by
        by_contra c; exact hs c
      have hnm : nm (s.getD i 0) = nm (s.getD j 0) := strcmp_eq_zero _ _ hs0
      have hlt : s.getD i 0 < s.getD j 0 := pairwise_getD s hctx.2.2 i j h2 hjn hnm
      have hnd : l.Nodup := d2.imp (fun h => Nat.ne_of_lt h)
      have htl : s.getD j 0 ∈ l.tail := mem_tail_of_lt l d2 _ _ hal hbl hlt
      obtain ⟨m1, e1, e2, e3, _, e5, _⟩ := unlink_dll m (s.getD j 0) l first none d1 hnd htl
      have hjl : j < ra.length := by omega
      obtain ⟨i1, ra1, m2, l1, r1, r2, r3, r4⟩ :=
        ih (j + 1) (ra.set j none) (m1.free (s.getD j 0)) (l.erase (s.getD j 0)) (by omega)
          ⟨by simp [h1], by omega, by omega, h4,
            fun k hk => final_at_set nm s ra j k none hjl (by omega) (h5 k hk),
            by rw [getD_set_opt ra j i none hjl, if_neg (by omega)]; exact h6,
            fun k hk1 hk2 => by
              rw [getD_set_opt ra j k none hjl]
              by_cases c : k = j
              · rw [if_pos c, c]; exact ⟨rfl, hnm.symm⟩
              · rw [if_neg c]; exact h7 k hk1 (by omega),
            fun k hk1 hk2 => by
              rw [getD_set_opt ra j k none hjl, if_neg (by omega)]
              exact h8 k (by omega) hk2⟩
          ⟨dll_free m1 _ _ _ _ e2 (fun hmem => (List.Nodup.mem_erase_iff hnd).1 hmem |>.1 rfl),
            List.Pairwise.sublist (List.erase_sublist _ _) d2,
            fun x => by
              rw [List.Nodup.mem_erase_iff hnd, d3 x]
              constructor
              · rintro ⟨hx, k, hk, hk2⟩
                refine ⟨k, hk, ?_⟩
                have : k ≠ j := by
                  intro c
                  rw [c, hrj] at hk2
                  exact hx (Option.some.inj hk2).symm
                rw [getD_set_opt ra j k none hjl, if_neg this]
                exact hk2
              · rintro ⟨k, hk, hk2⟩
                rw [getD_set_opt ra j k none hjl] at hk2
                by_cases c : k = j
                · rw [if_pos c] at hk2; exact absurd hk2 (by simp)
                · rw [if_neg c] at hk2
                  refine ⟨?_, k, hk, hk2⟩
                  intro ex
                  have := hshape k x hk hk2
                  rw [ex] at this
                  exact c (nodup_getD_inj s hctx.1 k j hk hjn this.symm),
            fun a => by
              have := d4 a
              simp only [fname, memory.free] at this ⊢
              rw [e5 a]; exact this⟩
      refine ⟨i1, ra1, m2, l1, ?_, r2, r3, r4⟩
      simp only [dupes_inner, h6, hrj, hla, hlb, hna, hnb]
      rw [if_neg hs]
      simp only [e1]
      exact r1

theorem dupes_outer_spec (nm : Nat → List Nat) (s : List Nat) (first : Option Nat)
    (hctx : sorted_ctx nm s) :
    ∀ (fuel i : Nat) (ra : List (Option Nat)) (m : memory) (l : List Nat),
      s.length ≤ i + fuel → outer_inv nm s i ra → mem_inv nm s first ra m l →
      ∃ ra1 m1 l1, dupes_outer s.length fuel i ra m = some (ra1, m1) ∧
        (∀ k, k < s.length → final_at nm s ra1 k) ∧ mem_inv nm s first ra1 m1 l1 := by
  intro fuel
  induction fuel with
  | zero =>
    intro i ra m l hi ho hm
    have hc : ¬ i + 1 < s.length := by omega
    refine ⟨ra, m, l, by simp [dupes_outer, hc], ?_, hm⟩
    rcases ho.2 with h | h
    · omega
    · exact h.1
  | succ fuel ih =>
    intro i ra m l hi ho hm
    by_cases hc : i + 1 < s.length
    · have hstep : ∃ i1 ra1 m1 l1,
          dupes_inner i (s.length - (i + 1)) (i + 1) ra m = some (i1, ra1, m1) ∧ i ≤ i1 ∧
          outer_inv nm s (i1 + 1) ra1 ∧ mem_inv nm s first ra1 m1 l1 := by
        rcases ho.2 with h | h
        · obtain ⟨h1, h2, h3, h4⟩ := h
          exact dupes_inner_spec nm s first hctx i _ (i + 1) ra m l (by omega)
            ⟨ho.1, by omega, by omega, h2, h3, h4 i (Nat.le_refl _) h1,
              fun k hk1 hk2 => by omega, fun k hk1 hk2 => h4 k (by omega) hk2⟩ hm
        · obtain ⟨n, hn⟩ : ∃ n, s.length - (i + 1) = n + 1 := ⟨s.length - (i + 1) - 1, by omega⟩
          refine ⟨i, ra, m, l, ?_, Nat.le_refl _, ⟨ho.1, Or.inr ⟨h.1, ?_⟩⟩, hm⟩
          · rw [hn]
            simp only [dupes_inner, h.2 i (Nat.le_refl _) (by omega)]
          · intro k hk1 hk2
            exact h.2 k (by omega) hk2
      obtain ⟨i1, ra1, m1, l1, e1, e2, e3, e4⟩ := hstep
      obtain ⟨ra2, m2, l2, r1, r2, r3⟩ := ih (i1 + 1) ra1 m1 l1 (by omega) e3 e4
      refine ⟨ra2, m2, l2, ?_, r2, r3⟩
      simp only [dupes_outer, hc, if_true, e1]
      exact r1
    · refine ⟨ra, m, l, by simp [dupes_outer, hc], ?_, hm⟩
      rcases ho.2 with h | h
      · obtain ⟨h1, h2, h3, h4⟩ := h
        intro k hk
        rcases Nat.lt_or_ge k i with c | c
        · exact h3 k c
        · have : k = i := by omega
          subst this
          exact ⟨fun _ => h4 k (Nat.le_refl _) hk, fun g => absurd h2 g⟩
      · exact h.1

theorem getD_map_some (s : List Nat) (k : Nat) (hk : k < s.length) :
    (s.map some).getD k none = some (s.getD k 0) := by
  simp [List.getD_eq_getElem?_getD, List.getElem?_eq_getElem, hk]

theorem mem_iff_getD (s : List Nat) (x : Nat) :
    x ∈ s ↔ ∃ k, k < s.length ∧ s.getD k 0 = x := by
  rw [List.mem_iff_getElem]
  constructor
  · rintro ⟨k, hk, e⟩
    exact ⟨k, hk, by simp [List.getD_eq_getElem?_getD, List.getElem?_eq_getElem, hk, e]⟩
  · rintro ⟨k, hk, e⟩
    refine ⟨k, hk, ?_⟩
    simpa [List.getD_eq_getElem?_getD, List.getElem?_eq_getElem, hk] using e

theorem remove_dupes_spec (m : memory) (s l : List Nat) (first : Option Nat)
    (hctx : sorted_ctx (fname m) s) (hd : dll m first none l)
    (hl : List.Pairwise (fun a b => a < b) l) (hmem : ∀ x, x ∈ l ↔ x ∈ s) :
    ∃ ra1 m1 l1, remove_dupes s m = some (ra1, m1) ∧ dll m1 first none l1 ∧
      List.Pairwise (fun a b => a < b) l1 ∧
      (∀ x, x ∈ l1 ↔ ∃ k, k < s.length ∧ gfirst (fname m) s k ∧ s.getD k 0 = x) ∧
      (∀ a, fname m1 a = fname m a) := by
  have ho : outer_inv (fname m) s 0 (s.map some) := by
    refine ⟨by simp, ?_⟩
    by_cases h0 : 0 < s.length
    · exact Or.inl ⟨h0, Or.inl rfl, fun k hk => by omega, fun k _ hk => getD_map_some s k hk⟩
    · exact Or.inr ⟨fun k hk => by omega, fun k _ hk => by omega⟩
  have hm : mem_inv (fname m) s first (s.map some) m l := by
    refine ⟨hd, hl, ?_, fun _ => rfl⟩
    intro x
    rw [hmem x, mem_iff_getD]
    constructor
    · rintro ⟨k, hk, e⟩
      exact ⟨k, hk, by rw [getD_map_some s k hk, e]⟩
    · rintro ⟨k, hk, e⟩
      rw [getD_map_some s k hk] at e
      exact ⟨k, hk, Option.some.inj e⟩
  obtain ⟨ra1, m1, l1, e1, e2, e3, e4, e5, e6⟩ :=
    dupes_outer_spec (fname m) s first hctx s.length 0 (s.map some) m l (by omega) ho hm
  refine ⟨ra1, m1, l1, e1, e3, e4, ?_, e6⟩
  intro x
  rw [e5 x]
  constructor
  · rintro ⟨k, hk, e⟩
    by_cases g : gfirst (fname m) s k
    · rw [(e2 k hk).1 g] at e
      exact ⟨k, hk, g, Option.some.inj e⟩
    · rw [(e2 k hk).2 g] at e
      exact absurd e (by simp)
  · rintro ⟨k, hk, g, e⟩
    exact ⟨k, hk, by rw [(e2 k hk).1 g, e]⟩

theorem gfirst_unique (nm : Nat → List Nat) (s : List Nat) (hctx : sorted_ctx nm s)
    (k k1 : Nat) (hk1 : k1 < s.length) (hlt : k < k1) (g : gfirst nm s k1)
    (e : nm (s.getD k 0) = nm (s.getD k1 0)) : False := by
  rcases g with g | g
  · omega
  · apply g
    rcases Nat.eq_or_lt_of_le (Nat.le_sub_one_of_lt hlt) with c | c
    · rw [← c]; exact e
    · have h1 : strcmp (nm (s.getD k 0)) (nm (s.getD (k1 - 1) 0)) ≤ 0 :=
        pairwise_getD s hctx.2.1 k (k1 - 1) c (by omega)
      have h2 : strcmp (nm (s.getD (k1 - 1) 0)) (nm (s.getD k1 0)) ≤ 0 :=
        pairwise_getD s hctx.2.1 (k1 - 1) k1 (by omega) hk1
      rw [e] at h1
      have h3 := strcmp_swap (nm (s.getD (k1 - 1) 0)) (nm (s.getD k1 0))
      exact strcmp_eq_zero _ _ (by omega)

theorem gfirst_cover (nm : Nat → List Nat) (s : List Nat) :
    ∀ k, ∃ k0, k0 ≤ k ∧ gfirst nm s k0 ∧ nm (s.getD k0 0) = nm (s.getD k 0) := by
  intro k
  induction k with
  | zero => exact ⟨0, Nat.le_refl _, Or.inl rfl, rfl⟩
  | succ k ih =>
    by_cases g : gfirst nm s (k + 1)
    · exact ⟨k + 1, Nat.le_refl _, g, rfl⟩
    · obtain ⟨k0, h1, h2, h3⟩ := ih
      refine ⟨k0, by omega, h2, ?_⟩
      rw [h3]
      by_contra c
      exact g (Or.inr (by simpa using c))

/-! ## Collection -/

theorem collected_init : collected collector.init := by
  refine ⟨rfl, rfl, ?_⟩
  intro i hi
  simp [collector.init] at hi

theorem collected_add (c : collector) (f : List Nat) (h : collected c) :
    collected (add_candidate c f) ∧
    paths (add_candidate c f).mem (add_candidate c f).ra = paths c.mem c.ra ++ [f] := by
  obtain ⟨h1, h2, h3⟩ := h
  generalize hn : c.ra.length = n at h1 h3
  have hra : (add_candidate c f).ra = List.range (n + 1) := by
    simp only [add_candidate, hn]
    rw [h1, List.range_succ]
  have e1 : (c.ra ++ [n]).getD n 0 = n := by
    have := getD_append_length c.ra n [] 0
    rwa [hn] at this
  have e2 : 0 < n → (c.ra ++ [n]).getD (n - 1) 0 = n - 1 := by
    intro hpos
    rw [List.getD_append _ _ _ _ (by omega), h1]
    simp [List.getD_eq_getElem?_getD, List.getElem?_eq_getElem, hpos]
  have hnode : ∀ i, (add_candidate c f).mem.node i =
      if i = n then
        { ra_struct.zero with filename := f, prev := if 0 < n then some (n - 1) else none,
                              number := n }
      else if i + 1 = n then { c.mem.node i with next := some n }
      else c.mem.node i := by
    intro i
    simp only [add_candidate, hn, e1]
    by_cases hpos : 0 < n
    · simp only [hpos, if_true, e2 hpos]
      by_cases c1 : i = n
      · subst c1
        have : i ≠ i - 1 := by omega
        simp [memory.store, this, ra_struct.zero]
      · by_cases c2 : i + 1 = n
        · have c3 : i = n - 1 := by omega
          have q1 : n - 1 ≠ n := by omega
          have q2 : n ≠ n - 1 := by omega
          have q3 : n - 1 + 1 = n := by omega
          subst c3
          simp [memory.store, q1, q2, q3]
        · have c3 : ¬ i = n - 1 := by omega
          simp [memory.store, c1, c2, c3]
    · have h0 : n = 0 := by omega
      subst h0
      by_cases c1 : i = 0
      · subst c1
        simp [memory.store, ra_struct.zero]
      · simp [memory.store, c1]
  refine ⟨⟨?_, ?_, ?_⟩, ?_⟩
  · rw [hra]; simp
  · simp only [add_candidate, hn]
    split_ifs <;> simpa [memory.store] using h2
  · intro i hi
    rw [hra, List.length_range] at hi
    rw [hra, List.length_range, hnode i]
    by_cases c1 : i = n
    · subst c1
      by_cases hpos : 0 < i
      · have : i ≠ 0 := by omega
        simp [hpos, this, ra_struct.zero]
      · have : i = 0 := by omega
        simp [this, ra_struct.zero]
    · by_cases c2 : i + 1 = n
      · have := (h3 i (by omega)).1
        simp [c1, c2, this]
      · have := h3 i (by omega)
        have c3 : i + 1 < n := by omega
        have c4 : i + 1 < n + 1 := by omega
        simp [c1, c2, this.1, this.2, c3, c4]
  · rw [hra, List.range_succ, paths, List.map_append, paths, h1]
    congr 1
    · apply List.map_congr_left
      intro a ha
      have : a < n := List.mem_range.1 ha
      rw [hnode a]
      by_cases c2 : a + 1 = n
      · have : a ≠ n := by omega
        simp [this, c2]
      · have : a ≠ n := by omega
        simp [this, c2]
    · simp [hnode n]

theorem collect_collected :
    ∀ (trace : List (List Nat)) (c c1 : collector), collect trace c = some c1 →
      collected c → collected c1 := by
  intro trace
  induction trace with
  | nil =>
    intro c c1 h hc
    simp only [collect, Option.some.injEq] at h
    rw [← h]; exact hc
  | cons line rest ih =>
    intro c c1 h hc
    simp only [collect] at h
    cases hx : extract_filename line with
    | skip => rw [hx] at h; exact ih c c1 h hc
    | fault => rw [hx] at h; simp at h
    | extracted f =>
      rw [hx] at h
      simp only at h
      split_ifs at h with g1 g2 g3
      · exact ih c c1 h hc
      · simp only [Option.some.injEq] at h
        rw [← h]; exact hc
      · exact ih _ c1 h (collected_add c f hc).1
      · exact ih c c1 h hc

theorem dll_range (m : memory) (n : Nat) (hf : m.freed = [])
    (h : ∀ i, i < n → (m.node i).prev = (if i = 0 then none else some (i - 1)) ∧
      (m.node i).next = (if i + 1 < n then some (i + 1) else none)) :
    ∀ (k a : Nat), a + k = n →
      dll m (if k = 0 then none else some a) (if a = 0 then none else some (a - 1))
        (List.range' a k) := by
  intro k
  induction k with
  | zero => intro a _; simp [dll]
  | succ k ih =>
    intro a ha
    rw [List.range'_succ]
    refine ⟨by simp, by simp [hf], (h a (by omega)).1, ?_⟩
    rw [(h a (by omega)).2]
    have := ih (a + 1) (by omega)
    by_cases hk : k = 0
    · subst hk
      have hc : ¬ a + 1 < n := by omega
      simpa [hc] using this
    · have hc : a + 1 < n := by omega
      simpa [hc, hk] using this

theorem collected_dll (c : collector) (h : collected c) : dll c.mem (first_ra c) none c.ra := by
  obtain ⟨h1, h2, h3⟩ := h
  have := dll_range c.mem c.ra.length h2 h3 c.ra.length 0 (by omega)
  rw [← List.range_eq_range', ← h1] at this
  have hf : first_ra c = if c.ra.length = 0 then none else some 0 := by
    rw [first_ra, h1, List.head?_range, List.length_range]
  rw [hf]
  simpa using this

theorem sorted_deduped_spec (c : collector) (hc : collected c) :
    ∃ s l m, sort_ra_by_name c.mem c.ra = some s ∧ sorted_ctx (fname c.mem) s ∧ s.Perm c.ra ∧
      sorted_deduped c = some (l, m) ∧ List.Pairwise (fun a b => a < b) l ∧
      (∀ x, x ∈ l ↔ ∃ k, k < s.length ∧ gfirst (fname c.mem) s k ∧ s.getD k 0 = x) ∧
      (∀ a, fname m a = fname c.mem a) ∧ (∀ a ∈ l, a ∉ m.freed) := by
  have hlt : List.Pairwise (fun a b => a < b) c.ra := by
    rw [hc.1]; exact List.pairwise_lt_range _
  obtain ⟨s, hs, hperm, hsorted, hstab⟩ := sort_ra_by_name_spec c.mem c.ra
  have hR : List.Pairwise (fun a b => fname c.mem a = fname c.mem b → a < b) c.ra := by
    refine List.Pairwise.imp ?_ hlt
    intro a b h _
    exact h
  have hctx : sorted_ctx (fname c.mem) s :=
    ⟨hperm.nodup_iff.2 (hlt.imp (fun h => Nat.ne_of_lt h)), hsorted, hstab hR⟩
  obtain ⟨ra1, m1, l1, e1, e2, e3, e4, e5⟩ :=
    remove_dupes_spec c.mem s c.ra (first_ra c) hctx (collected_dll c hc) hlt
      (fun x => (hperm.mem_iff).symm)
  have hsub : l1 ⊆ s := by
    intro x hx
    obtain ⟨k, hk, _, e⟩ := (e4 x).1 hx
    exact (mem_iff_getD s x).2 ⟨k, hk, e⟩
  have hlen : l1.length ≤ c.ra.length := by
    rw [← hperm.length_eq]
    have hnd : l1.Nodup := e3.imp (fun h => Nat.ne_of_lt h)
    exact (hnd.subperm hsub).length_le
  have hw := walk_dll m1 l1 c.ra.length _ _ e2 hlen
  refine ⟨s, l1, m1, hs, hctx, hperm, ?_, e3, e4, e5, dll_not_freed m1 l1 _ _ e2⟩
  simp only [sorted_deduped, hs, e1, hw]

/-- C5: for every trace that the collector reads to its end, the candidate
list left by collection, `sort_ra_by_name` and `remove_dupes` (the nodes met
from `first_ra` along `next`) exists, holds no path twice, and holds exactly
the paths that were collected, whatever their multiplicity. For the three
lines of the scenario the collected paths are `/bin/ls`, `/bin/ls` and the
list left is the one entry `/bin/ls`. -/
theorem sorted_deduped_one_per_path (trace : List (List Nat)) (c : collector)
    (h : collect trace collector.init = some c) :
    (∃ l m, sorted_deduped c = some (l, m) ∧ (paths m l).Nodup ∧
      (∀ p, p ∈ paths m l ↔ p ∈ paths c.mem c.ra)) ∧
    (collect trace3 collector.init).map (fun c => paths c.mem c.ra) =
      some [cstr "/bin/ls", cstr "/bin/ls"] ∧
    ((collect trace3 collector.init).bind sorted_deduped).map (fun r => paths r.2 r.1) =
      some [cstr "/bin/ls"] := by
  refine ⟨?_, by decide, by decide⟩
  have hc := collect_collected trace _ c h collected_init
  obtain ⟨s, l, m, _, hctx, hperm, e1, e2, e3, e4, _⟩ := sorted_deduped_spec c hc
  refine ⟨l, m, e1, ?_, ?_⟩
  · refine List.Nodup.map_on ?_ (e2.imp (fun h => Nat.ne_of_lt h))
    intro x hx y hy hxy
    obtain ⟨k, hk, gk, ek⟩ := (e3 x).1 hx
    obtain ⟨k1, hk1, gk1, ek1⟩ := (e3 y).1 hy
    have hn : fname c.mem (s.getD k 0) = fname c.mem (s.getD k1 0) := by
      rw [ek, ek1, ← e4 x, ← e4 y]; exact hxy
    rcases Nat.lt_trichotomy k k1 with c1 | c1 | c1
    · exact (gfirst_unique _ s hctx k k1 hk1 c1 gk1 hn).elim
    · rw [← ek, ← ek1, c1]
    · exact (gfirst_unique _ s hctx k1 k hk c1 gk hn.symm).elim
  · intro p
    simp only [paths, List.mem_map]
    constructor
    · rintro ⟨x, hx, e⟩
      obtain ⟨k, hk, _, ek⟩ := (e3 x).1 hx
      refine ⟨x, hperm.mem_iff.1 ((mem_iff_getD s x).2 ⟨k, hk, ek⟩), ?_⟩
      rw [← e]; exact (e4 x).symm
    · rintro ⟨a, ha, e⟩
      obtain ⟨k, hk, ek⟩ := (mem_iff_getD s a).1 (hperm.mem_iff.2 ha)
      obtain ⟨k0, h0, g0, n0⟩ := gfirst_cover (fname c.mem) s k
      refine ⟨s.getD k0 0, (e3 _).2 ⟨k0, by omega, g0, rfl⟩, ?_⟩
      rw [← e, ← ek]
      exact (e4 _).trans n0

/-- Witness of C5: the trace of the scenario. -/
theorem sorted_deduped_one_per_path_witness :
    ∃ c, collect trace3 collector.init = some c ∧
      ∃ l m, sorted_deduped c = some (l, m) ∧ (paths m l).Nodup ∧
        (∀ p, p ∈ paths m l ↔ p ∈ paths c.mem c.ra) := by
  have hs : (collect trace3 collector.init).isSome = true := by decide
  obtain ⟨c, hc⟩ := Option.isSome_iff_exists.1 hs
  exact ⟨c, hc, (sorted_deduped_one_per_path trace3 c hc).1⟩

/-! ## Lines and files outside the claims' good cases -/

theorem strchr_none (l : List Nat) (c : Nat) (h : c ∉ l) : strchr l c = none := by
  induction l with
  | nil => simp [strchr]
  | cons x l ih =>
    have hx : x ≠ c := fun e => h (by simp [e])
    have hp : c ∉ l := fun e => h (by simp [e])
    simp [strchr, hx, ih hp]

theorem extract_filename_fault (line : List Nat) (h1 : line.head? ≠ some 35)
    (h2 : line.count 34 < 2) : extract_filename line = line_result.fault := by
  unfold extract_filename
  rw [if_neg h1]
  by_cases hm : 34 ∈ line
  · obtain ⟨pre, rest, e, hp⟩ := split_first 34 line hm
    have hc : line.count 34 = rest.count 34 + 1 := by
      rw [e, List.count_append, List.count_cons_self, List.count_eq_zero_of_not_mem hp]
      omega
    have hr : 34 ∉ rest := fun hr => by
      have := List.count_pos_iff.2 hr
      omega
    subst e
    simp only [line_start, strchr_first pre rest 34 hp]
    rw [if_neg (by simp)]
    have hd : List.drop (pre.length + 1) (pre ++ 34 :: rest) = rest := by
      rw [show pre ++ 34 :: rest = (pre ++ [34]) ++ rest by simp]
      exact List.drop_left' (by simp)
    simp only [hd, strrchr_none rest 34 hr]
  · simp only [line_start, strchr_none line 34 hm]
    rw [if_neg (by simp)]

theorem scan_loop_absent (f : file_info) (hz : ∀ k, f.mincorebuf.getD k 0 = 0) :
    ∀ (fuel : Nat) (s : scan_state), s.phase = 0 → s.rcount = 0 →
      f.st_size < s.i + 4096 * fuel →
      ∃ s1, scan_loop f fuel s = some s1 ∧ s1.phase = 0 ∧ s1.rcount = 0 := by
  intro fuel
  induction fuel with
  | zero =>
    intro s h1 h2 h3
    have : ¬ s.i ≤ f.st_size := by omega
    exact ⟨s, by simp [scan_loop, this], h1, h2⟩
  | succ fuel ih =>
    intro s h1 h2 h3
    by_cases hc : s.i ≤ f.st_size
    · have hb : scan_body f s = s := by
        simp only [scan_body, h1, hz (s.i / 4096)]
        simp
      obtain ⟨s1, e1, e2, e3⟩ := ih { s with i := s.i + 4096 } h1 h2 (by simp; omega)
      refine ⟨s1, ?_, e2, e3⟩
      simp only [scan_loop, hc, if_true, hb]
      exact e1
    · exact ⟨s, by simp [scan_loop, hc], h1, h2⟩

theorem get_blocks_no_resident (f : file_info) (data : List ra_record)
    (ho : f.opens = true) (hr : f.isreg = true) (hz : ∀ k, f.mincorebuf.getD k 0 = 0)
    (o : copy_order) : get_blocks o f data = some (retval.missing, data) := by
  obtain ⟨s1, e1, e2, e3⟩ := scan_loop_absent f hz (f.st_size / 4096 + 1)
    { i := 0, phase := 0, start := 0, rcount := 0,
      record := List.replicate 4096 ra_record.zero } rfl rfl (by simp; omega)
  have hs : scan f = some s1 := by
    simp only [scan, hz, ne_eq, not_true_eq_false, if_false, e1, Option.map_some']
    simp [scan_finish, e2]
  have hred : reduce_blocks o s1.record s1.rcount MAXRECS = some (s1.record, 0) := by
    rw [e3]; rfl
  simp [get_blocks, ho, hr, hs, hred]

/-! ## Reading the pack -/

theorem read_records_length (be : Bool) :
    ∀ (n : Nat) (bytes : List Nat), (read_records be n bytes).length = n := by
  intro n
  induction n with
  | zero => intro bytes; rfl
  | succ n ih => intro bytes; simp [read_records, ih]

theorem read_records_get (be : Bool) :
    ∀ (n : Nat) (bytes : List Nat) (k : Nat), k < n →
      (read_records be n bytes)[k]? =
        some (read_record be ((bytes.drop (RECSIZE * k)).take RECSIZE)) := by
  intro n
  induction n with
  | zero => intro bytes k hk; omega
  | succ n ih =>
    intro bytes k hk
    cases k with
    | zero => simp [read_records]
    | succ k =>
      simp only [read_records, List.getElem?_cons_succ]
      rw [ih (bytes.drop RECSIZE) k (by omega), List.drop_drop]
      congr 4
      ring

theorem read_records_take (be : Bool) :
    ∀ (n : Nat) (bytes : List Nat),
      read_records be n (bytes.take (RECSIZE * n)) = read_records be n bytes := by
  intro n
  induction n with
  | zero => intro bytes; rfl
  | succ n ih =>
    intro bytes
    simp only [read_records]
    rw [List.take_take, List.drop_take,
      show RECSIZE * (n + 1) - RECSIZE = RECSIZE * n by simp [Nat.mul_succ], ih]
    congr 2
    rw [Nat.min_eq_left (by simp [Nat.mul_succ])]

/-- C11: for every byte order and every pack file content `bytes` of `L`
bytes, the reader sets `total_files = min(L / 176, 40000)` and loads that many
records; record `k` is decoded from the 176 bytes at offset `176 * k`, which
all lie inside the file; and the result is the same as for the file cut after
its first `176 * total_files` bytes, so bytes after the last whole record are
neither counted nor decoded. -/
theorem read_pack_whole_records (be : Bool) (bytes : List Nat) :
    (read_pack be bytes).2 = min (bytes.length / 176) 40000 ∧
    (read_pack be bytes).1.length = (read_pack be bytes).2 ∧
    (∀ k, k < (read_pack be bytes).2 →
      176 * k + 176 ≤ bytes.length ∧
      ((bytes.drop (176 * k)).take 176).length = 176 ∧
      (read_pack be bytes).1[k]? = some (read_record be ((bytes.drop (176 * k)).take 176))) ∧
    read_pack be (bytes.take (176 * (read_pack be bytes).2)) = read_pack be bytes := by
  have hn : (read_pack be bytes).2 = min (bytes.length / 176) 40000 := rfl
  have hle : 176 * (read_pack be bytes).2 ≤ bytes.length := by
    rw [hn]
    have := Nat.mul_div_le bytes.length 176
    have := Nat.min_le_left (bytes.length / 176) 40000
    omega
  refine ⟨hn, read_records_length be _ _, ?_, ?_⟩
  · intro k hk
    have h1 : 176 * k + 176 ≤ bytes.length := by omega
    refine ⟨h1, ?_, read_records_get be _ bytes k hk⟩
    simp only [List.length_take, List.length_drop]
    omega
  · have hlen : (bytes.take (176 * (read_pack be bytes).2)).length / RECSIZE =
        (read_pack be bytes).2 := by
      rw [List.length_take, Nat.min_eq_left hle]
      exact Nat.mul_div_cancel_left _ (by decide)
    have hmin : min (read_pack be bytes).2 MAXR = (read_pack be bytes).2 := by
      rw [hn]
      exact Nat.min_eq_left (Nat.min_le_right _ _)
    have ht := read_records_take be (read_pack be bytes).2 bytes
    simp only [RECSIZE] at ht
    rw [show read_pack be (bytes.take (176 * (read_pack be bytes).2)) =
        (read_records be (min ((bytes.take (176 * (read_pack be bytes).2)).length / RECSIZE) MAXR)
          (bytes.take (176 * (read_pack be bytes).2)),
         min ((bytes.take (176 * (read_pack be bytes).2)).length / RECSIZE) MAXR) from rfl]
    rw [hlen, hmin, ht]
    rfl

/-! ## Stored paths -/

theorem collect_stores_whole :
    ∀ (trace : List (List Nat)) (c c1 : collector), collect trace c = some c1 → collected c →
      ∃ added, paths c1.mem c1.ra = paths c.mem c.ra ++ added ∧
        ∀ p ∈ added, p.length ≤ MAXFL ∧ ignored p = false ∧
          ∃ line ∈ trace, extract_filename line = line_result.extracted p := by
  intro trace
  induction trace with
  | nil =>
    intro c c1 h _
    simp only [collect, Option.some.injEq] at h
    exact ⟨[], by rw [← h]; simp, fun p hp => by simp at hp⟩
  | cons line rest ih =>
    intro c c1 h hc
    have lift : (∃ added, paths c1.mem c1.ra = paths c.mem c.ra ++ added ∧
        ∀ p ∈ added, p.length ≤ MAXFL ∧ ignored p = false ∧
          ∃ l ∈ rest, extract_filename l = line_result.extracted p) →
        ∃ added, paths c1.mem c1.ra = paths c.mem c.ra ++ added ∧
        ∀ p ∈ added, p.length ≤ MAXFL ∧ ignored p = false ∧
          ∃ l ∈ line :: rest, extract_filename l = line_result.extracted p := by
      rintro ⟨added, e, hp⟩
      refine ⟨added, e, fun p hm => ?_⟩
      obtain ⟨h1, h2, l, hl, h3⟩ := hp p hm
      exact ⟨h1, h2, l, by simp [hl], h3⟩
    simp only [collect] at h
    cases hx : extract_filename line with
    | skip => rw [hx] at h; exact lift (ih c c1 h hc)
    | fault => rw [hx] at h; simp at h
    | extracted f =>
      rw [hx] at h
      simp only at h
      split_ifs at h with g1 g2 g3
      · exact lift (ih c c1 h hc)
      · simp only [Option.some.injEq] at h
        exact ⟨[], by rw [← h]; simp, fun p hp => by simp at hp⟩
      · obtain ⟨hc2, hp2⟩ := collected_add c f hc
        obtain ⟨added, e, hp⟩ := ih _ c1 h hc2
        refine ⟨f :: added, by rw [e, hp2]; simp, fun p hm => ?_⟩
        rcases List.mem_cons.1 hm with e1 | e1
        · subst e1
          exact ⟨g3, by simpa using g1, line, by simp, hx⟩
        · obtain ⟨h1, h2, l, hl, h3⟩ := hp p e1
          exact ⟨h1, h2, l, by simp [hl], h3⟩
      · exact lift (ih c c1 h hc)

set_option maxRecDepth 8192 in
/-- C12 (the code at the failing input): the trace line `line128` holds a
quoted path of exactly 128 bytes. The test `strlen(filename) <= MAXFL` lets it
through and the collector stores it whole; `strcpy` then writes 129 bytes from
the start of the field `filename`, so its last write, the NUL, is at offset
128, which is `DATA_OFFSET`, the first byte of the range slots; and the 128
bytes of the field hold no NUL. -/
theorem collect_path128 :
    extract_filename line128 = line_result.extracted path128 ∧
    path128.length = 128 ∧
    (collect [line128] collector.init).map (fun c => paths c.mem c.ra) = some [path128] ∧
    (strcpy_bytes path128).length = 129 ∧
    128 ∈ strcpy_touched path128 ∧ DATA_OFFSET ≤ 128 ∧
    (strcpy_bytes path128).getD 128 1 = 0 ∧
    0 ∉ filename_field path128 := by
  decide

/-! ## The residency scan on single runs -/

/-- C14 (the code at the failing input): for the file `one_run`, whose only
maximal run of resident pages is page 0 (bytes 0 to 4096, so
`run end - run start = 4096`), the residency scan yields the one range
`(0, 4095)`: a run closed inside the loop gets `len = i - 1 - start`. For
`seven_runs` it yields seven ranges of length 4095 for seven runs of 4096
bytes. Only a run that reaches the end of the file (`last_run`) gets its exact
length `st_size - start`. -/
theorem scan_one_run :
    scan_ranges one_run = some [⟨0, 4095⟩] ∧
    one_run.mincorebuf = [1, 0] ∧ 4096 ≤ one_run.st_size ∧
    scan_ranges seven_runs = some [⟨0, 4095⟩, ⟨8192, 4095⟩, ⟨16384, 4095⟩, ⟨24576, 4095⟩,
      ⟨32768, 4095⟩, ⟨40960, 4095⟩, ⟨49152, 4095⟩] ∧
    scan_ranges last_run = some [⟨4096, 4095⟩] ∧ last_run.st_size - 4096 = 4095 := by
  decide

/-! ## Sorting -/

/-- C15: for every memory and every candidate array `ra`, `sort_ra_by_name`
returns (the loop `while (delta > 0)` ends within its bound), and the array it
leaves is a permutation of `ra` in which the paths are in non-decreasing
`strcmp` order. -/
theorem sort_ra_by_name_sorted_perm (m : memory) (ra : List Nat) :
    ∃ ra1, sort_ra_by_name m ra = some ra1 ∧ ra1.Perm ra ∧
      List.Pairwise (fun a b => strcmp (fname m a) (fname m b) ≤ 0) ra1 := by
  obtain ⟨ra1, h1, h2, h3, _⟩ := sort_ra_by_name_spec m ra
  exact ⟨ra1, h1, h2, h3⟩

/-! ## readahead_one -/

theorem range_map_rec_at (data : List ra_record) (n : Nat) (h : data.length = n) :
    (List.range n).map (rec_at data) = data := by
  apply List.ext_getElem?
  intro k
  by_cases hk : k < n
  · simp [rec_at, List.getD_eq_getElem?_getD, List.getElem?_eq_getElem, hk, h ▸ hk]
  · have hk2 : n ≤ k := Nat.le_of_not_lt hk
    rw [List.getElem?_eq_none (by simpa using hk2), List.getElem?_eq_none (by omega)]

/-- C16: for every loaded record with its 6 slots, when one of the two `open`
calls succeeds `readahead_one` issues exactly the hints `(offset, len)` of the
slots with `len ≠ 0`, in slot order, one per such slot and none for a slot
with `len = 0`; when both `open` calls fail it issues no hint. -/
theorem readahead_one_hints (d : ra_disk) (noatime_ok plain_ok : Bool)
    (hlen : d.data.length = MAXRECS) :
    ((noatime_ok = true ∨ plain_ok = true) →
      readahead_one d noatime_ok plain_ok =
        (d.data.filter (fun r => decide (r.len ≠ 0))).map (fun r => (r.offset, r.len))) ∧
    ((noatime_ok = false ∧ plain_ok = false) → readahead_one d noatime_ok plain_ok = []) := by
  constructor
  · intro h
    have hc : (!noatime_ok && !plain_ok) = false := by
      rcases h with h | h <;> simp [h]
    have hm := range_map_rec_at d.data MAXRECS hlen
    simp only [readahead_one, hc, Bool.false_eq_true, if_false]
    conv_rhs => rw [← hm]
    rw [List.filter_map, List.map_map, ← List.filterMap_eq_map, List.filterMap_filter]
    refine List.filterMap_congr ?_
    intro i _
    by_cases hz : (rec_at d.data i).len = 0 <;> simp [hz]
  · rintro ⟨h1, h2⟩
    simp [readahead_one, h1, h2]

/-! ## Replay workers -/

theorem count_set_true (l : List Bool) (w : Nat) (h : l.getD w true = false) :
    (l.set w true).count true = l.count true + 1 := by
  induction l generalizing w with
  | nil => simp at h
  | cons b l ih =>
    cases w with
    | zero =>
      simp at h
      subst h
      simp
    | succ w =>
      simp only [List.getD_cons_succ] at h
      simp only [List.set_cons_succ, List.count_cons, ih w h]
      omega

theorem replay_inv_start (M : Nat) : replay_inv M (replay.start 4) := by
  refine ⟨by simp [replay.start], by simp [replay.start], ?_, by simp [replay.start]⟩
  intro h
  simp [replay.start] at h

theorem replay_inv_step (M : Nat) (hM : M ≤ MAXR) (s : replay) (w : Nat)
    (h : replay_inv M s) : replay_inv M (one_thread_step M s w) := by
  obtain ⟨h1, h2, h3, h4⟩ := h
  unfold one_thread_step
  by_cases hf : s.finished.getD w true = true
  · rw [if_pos hf]; exact ⟨h1, h2, h3, h4⟩
  · rw [if_neg hf]
    have hf2 : s.finished.getD w true = false := by simpa using hf
    have hcnt : s.finished.count true ≤ 4 := by
      rw [← h4]; exact List.count_le_length _ _
    have hmod : (s.cursor + 1) % 4294967296 = s.cursor + 1 := by
      apply Nat.mod_eq_of_lt
      simp only [MAXR] at hM
      omega
    simp only [hmod]
    by_cases hm : s.cursor < M
    · rw [if_pos hm]
      refine ⟨?_, by simp only; omega, ?_, h4⟩
      · simp only [List.map_append, List.map_cons, List.map_nil, h1]
        rw [Nat.min_eq_left (by omega), Nat.min_eq_left (by omega), List.range_succ]
      · intro ht
        have := h3 ht
        omega
    · rw [if_neg hm]
      refine ⟨?_, ?_, fun _ => by simp only; omega, by simpa using h4⟩
      · simp only [h1]
        rw [Nat.min_eq_right (by omega), Nat.min_eq_right (by omega)]
      · simp only [count_set_true s.finished w hf2]
        omega

theorem replay_inv_run (M : Nat) (hM : M ≤ MAXR) :
    ∀ (schedule : List Nat) (s : replay), replay_inv M s →
      replay_inv M (schedule.foldl (one_thread_step M) s) := by
  intro schedule
  induction schedule with
  | nil => intro s h; exact h
  | cons w rest ih =>
    intro s h
    exact ih _ (replay_inv_step M hM s w h)

/-- C13: for a loaded record array of size `M ≤ MAXR` and every interleaving
`schedule` of the atomic fetch-and-add steps of the four workers, every index
passed to `readahead_one` is below `M`, no index is passed twice, and once all
four workers have finished the indices passed are exactly `0, …, M - 1`, each
claimed by one worker. -/
theorem run_threads_claims (M : Nat) (hM : M ≤ MAXR) (schedule : List Nat) :
    (∀ c ∈ (run_threads M schedule).calls, c.2 < M) ∧
    ((run_threads M schedule).calls.map Prod.snd).Nodup ∧
    (run_threads M schedule).cursor ≤ M + 4 ∧
    ((run_threads M schedule).finished = [true, true, true, true] →
      (run_threads M schedule).calls.map Prod.snd = List.range M) := by
  obtain ⟨h1, h2, h3, h4⟩ := replay_inv_run M hM schedule _ (replay_inv_start M)
  change (run_threads M schedule).calls.map Prod.snd = _ at h1
  change (true ∈ (run_threads M schedule).finished → _) at h3
  refine ⟨?_, ?_, ?_, ?_⟩
  · intro c hc
    have hm : c.2 ∈ (run_threads M schedule).calls.map Prod.snd := List.mem_map_of_mem _ hc
    rw [h1, List.mem_range] at hm
    exact Nat.lt_of_lt_of_le hm (Nat.min_le_right _ _)
  · rw [h1]; exact List.nodup_range _
  · have := List.count_le_length true (schedule.foldl (one_thread_step M) (replay.start 4)).finished
    have e : (run_threads M schedule).cursor =
        (schedule.foldl (one_thread_step M) (replay.start 4)).cursor := rfl
    omega
  · intro hf
    have := h3 (by rw [hf]; simp)
    rw [h1, Nat.min_eq_right (by omega)]

/-- Witness of C13: three records and the interleaving 0, 1, 2, 3, 0, 1, 2,
after which all four workers have finished. -/
theorem run_threads_claims_witness :
    3 ≤ MAXR ∧ (run_threads 3 [0, 1, 2, 3, 0, 1, 2]).finished = [true, true, true, true] ∧
    (run_threads 3 [0, 1, 2, 3, 0, 1, 2]).calls = [(0, 0), (1, 1), (2, 2)] ∧
    (run_threads 3 [0, 1, 2, 3, 0, 1, 2]).calls.map Prod.snd = List.range 3 :=
  ⟨by decide, by decide, by decide,
    (run_threads_claims 3 (by decide) [0, 1, 2, 3, 0, 1, 2]).2.2.2 (by decide)⟩

/-- Witness of C16: the record `sample_disk`, whose first two slots are in
use, when only the second `open` succeeds. -/
theorem readahead_one_hints_witness :
    sample_disk.data.length = MAXRECS ∧
    readahead_one sample_disk false true = [(0, 12287), (16384, 4294967295)] :=
  ⟨by decide,
    ((readahead_one_hints sample_disk false true (by decide)).1 (Or.inr rfl)).trans (by decide)⟩

/-! ## What remove_dupes frees -/

theorem unlink_freed (m m1 : memory) (x : Nat) (h : unlink m x = some m1) :
    m1.freed = m.freed := by
  unfold unlink at h
  cases hx : m.load x with
  | none => rw [hx] at h; simp at h
  | some rx =>
    rw [hx] at h
    simp only at h
    cases hn : rx.next with
    | none =>
      rw [hn] at h
      simp only at h
      cases hp : (m.node x).prev with
      | none => rw [hp] at h; simp at h; rw [← h]
      | some p =>
        rw [hp] at h
        simp only at h
        cases hl : m.load p with
        | none => rw [hl] at h; simp at h
        | some rp => rw [hl] at h; simp at h; rw [← h]; rfl
    | some n =>
      rw [hn] at h
      simp only at h
      cases hl : m.load n with
      | none => rw [hl] at h; simp at h
      | some rn =>
        rw [hl] at h
        simp only at h
        cases hp : ((m.store n { rn with prev := rx.prev }).node x).prev with
        | none => rw [hp] at h; simp at h; rw [← h]; rfl
        | some p =>
          rw [hp] at h
          simp only at h
          cases hl2 : (m.store n { rn with prev := rx.prev }).load p with
          | none => rw [hl2] at h; simp at h
          | some rp => rw [hl2] at h; simp at h; rw [← h]; rfl

theorem dupes_inner_freed (i : Nat) :
    ∀ (n j : Nat) (ra : List (Option Nat)) (m : memory) (i1 : Nat) (ra1 : List (Option Nat))
      (m1 : memory), dupes_inner i n j ra m = some (i1, ra1, m1) →
      (∀ x ∈ m1.freed, x ∈ m.freed ∨ ∃ k, ra.getD k none = some x) ∧
      (∀ k x, ra1.getD k none = some x → ra.getD k none = some x) := by
  intro n
  induction n with
  | zero =>
    intro j ra m i1 ra1 m1 h
    simp only [dupes_inner, Option.some.injEq, Prod.mk.injEq] at h
    obtain ⟨_, h2, h3⟩ := h
    subst h2; subst h3
    exact ⟨fun x hx => Or.inl hx, fun k x hk => hk⟩
  | succ n ih =>
    intro j ra m i1 ra1 m1 h
    simp only [dupes_inner] at h
    cases hi : ra.getD i none with
    | none =>
      rw [hi] at h
      simp only [Option.some.injEq, Prod.mk.injEq] at h
      obtain ⟨_, h2, h3⟩ := h
      subst h2; subst h3
      exact ⟨fun x hx => Or.inl hx, fun k x hk => hk⟩
    | some a =>
      rw [hi] at h
      simp only at h
      cases hj : ra.getD j none with
      | none => rw [hj] at h; simp at h
      | some b =>
        rw [hj] at h
        simp only at h
        cases hla : m.load a with
        | none => rw [hla] at h; simp at h
        | some na =>
          cases hlb : m.load b with
          | none => rw [hla, hlb] at h; simp at h
          | some nb =>
            rw [hla, hlb] at h
            simp only at h
            split_ifs at h with hs
            · simp only [Option.some.injEq, Prod.mk.injEq] at h
              obtain ⟨_, h2, h3⟩ := h
              subst h2; subst h3
              exact ⟨fun x hx => Or.inl hx, fun k x hk => hk⟩
            · cases hu : unlink m b with
              | none => rw [hu] at h; simp at h
              | some mu =>
                rw [hu] at h
                simp only at h
                obtain ⟨r1, r2⟩ := ih _ _ _ _ _ _ h
                have hsub : ∀ k x, (ra.set j none).getD k none = some x →
                    ra.getD k none = some x := by
                  intro k x hk
                  by_cases hjl : j < ra.length
                  · rw [getD_set_opt ra j k none hjl] at hk
                    by_cases c : k = j
                    · rw [if_pos c] at hk; simp at hk
                    · rw [if_neg c] at hk; exact hk
                  · rw [List.set_eq_of_length_le (by omega)] at hk
                    exact hk
                refine ⟨?_, fun k x hk => hsub k x (r2 k x hk)⟩
                intro x hx
                rcases r1 x hx with c | ⟨k, hk⟩
                · simp only [memory.free, List.mem_cons] at c
                  rcases c with c | c
                  · exact Or.inr ⟨j, by rw [hj, c]⟩
                  · rw [unlink_freed m mu b hu] at c
                    exact Or.inl c
                · exact Or.inr ⟨k, hsub k x hk⟩

theorem dupes_outer_freed (racount : Nat) :
    ∀ (fuel i : Nat) (ra : List (Option Nat)) (m : memory) (ra1 : List (Option Nat))
      (m1 : memory), dupes_outer racount fuel i ra m = some (ra1, m1) →
      ∀ x ∈ m1.freed, x ∈ m.freed ∨ ∃ k, ra.getD k none = some x := by
  intro fuel
  induction fuel with
  | zero =>
    intro i ra m ra1 m1 h x hx
    simp only [dupes_outer] at h
    split_ifs at h
    simp only [Option.some.injEq, Prod.mk.injEq] at h
    rw [← h.2] at hx
    exact Or.inl hx
  | succ fuel ih =>
    intro i ra m ra1 m1 h x hx
    simp only [dupes_outer] at h
    split_ifs at h with hc
    · cases hin : dupes_inner i (racount - (i + 1)) (i + 1) ra m with
      | none => rw [hin] at h; simp at h
      | some r =>
        obtain ⟨i1, ra2, m2⟩ := r
        rw [hin] at h
        simp only at h
        obtain ⟨r1, r2⟩ := dupes_inner_freed i _ _ _ _ _ _ _ hin
        rcases ih _ _ _ _ _ h x hx with c | ⟨k, hk⟩
        · exact r1 x c
        · exact Or.inr ⟨k, r2 k x hk⟩
    · simp only [Option.some.injEq, Prod.mk.injEq] at h
      rw [← h.2] at hx
      exact Or.inl hx

theorem remove_dupes_freed (s : List Nat) (m : memory) (ra1 : List (Option Nat)) (m1 : memory)
    (h : remove_dupes s m = some (ra1, m1)) :
    ∀ x ∈ m1.freed, x ∈ m.freed ∨ x ∈ s := by
  intro x hx
  rcases dupes_outer_freed _ _ _ _ _ _ _ h x hx with c | ⟨k, hk⟩
  · exact Or.inl c
  · right
    by_cases hkl : k < s.length
    · rw [getD_map_some s k hkl] at hk
      exact (mem_iff_getD s x).2 ⟨k, hkl, Option.some.inj hk⟩
    · rw [List.getD_eq_getElem?_getD, List.getElem?_eq_none (by simpa using hkl)] at hk
      simp at hk

theorem first_seen_iff (nm : Nat → List Nat) (s : List Nat) (n : Nat)
    (hctx : sorted_ctx nm s) (hperm : s.Perm (List.range n)) (x : Nat) :
    (∃ k, k < s.length ∧ gfirst nm s k ∧ s.getD k 0 = x) ↔
      x < n ∧ ∀ j, j < x → nm j ≠ nm x := by
  constructor
  · rintro ⟨k, hk, g, e⟩
    have hx : x < n := List.mem_range.1 (hperm.mem_iff.1 ((mem_iff_getD s x).2 ⟨k, hk, e⟩))
    refine ⟨hx, ?_⟩
    intro j hj hn
    have hjs : j ∈ s := hperm.mem_iff.2 (List.mem_range.2 (by omega))
    obtain ⟨k1, hk1, e1⟩ := (mem_iff_getD s j).1 hjs
    have hn2 : nm (s.getD k1 0) = nm (s.getD k 0) := by rw [e1, e]; exact hn
    rcases Nat.lt_trichotomy k1 k with c | c | c
    · exact gfirst_unique nm s hctx k1 k hk c g hn2
    · rw [c, e] at e1; omega
    · have := pairwise_getD s hctx.2.2 k k1 c hk1 hn2.symm
      rw [e, e1] at this
      omega
  · rintro ⟨hx, hfirst⟩
    have hxs : x ∈ s := hperm.mem_iff.2 (List.mem_range.2 hx)
    obtain ⟨k, hk, e⟩ := (mem_iff_getD s x).1 hxs
    refine ⟨k, hk, ?_, e⟩
    by_cases h0 : k = 0
    · exact Or.inl h0
    · right
      intro hn
      have hlt := pairwise_getD s hctx.2.2 (k - 1) k (by omega) hk hn
      rw [e] at hlt hn
      exact hfirst _ hlt hn

theorem sorted_lists_eq (l1 l2 : List Nat) (h1 : List.Pairwise (fun a b => a < b) l1)
    (h2 : List.Pairwise (fun a b => a < b) l2) (h : ∀ x, x ∈ l1 ↔ x ∈ l2) : l1 = l2 := by
  have hn1 : l1.Nodup := h1.imp (fun h => Nat.ne_of_lt h)
  have hn2 : l2.Nodup := h2.imp (fun h => Nat.ne_of_lt h)
  refine List.Perm.eq_of_sorted ?_ h1 h2 ((List.perm_ext_iff_of_nodup hn1 hn2).2 h)
  intro a b _ _ hab hba
  omega

/-- C17: for every trace that the collector reads to its end, `sort_ra_by_name`
returns an array in which equal paths keep their trace order (only the array
is reordered, the nodes are untouched), and the list walked from `first_ra`
after `remove_dupes` is exactly the list of the nodes whose path occurs for
the first time, in trace order, with their paths unchanged. None of its nodes
is freed, in particular not the node `first_ra` points to, and every freed
node is a collected node whose path was seen earlier in the trace. -/
theorem first_ra_list_first_seen (trace : List (List Nat)) (c : collector)
    (h : collect trace collector.init = some c) :
    ∃ s l m, sort_ra_by_name c.mem c.ra = some s ∧
      List.Pairwise (fun a b => fname c.mem a = fname c.mem b → a < b) s ∧
      c.ra = List.range c.ra.length ∧
      sorted_deduped c = some (l, m) ∧
      l = (List.range c.ra.length).filter
        (fun i => decide (∀ j, j < i → fname c.mem j ≠ fname c.mem i)) ∧
      paths m l = paths c.mem l ∧
      (∀ a ∈ l, a ∉ m.freed) ∧
      (∀ a, first_ra c = some a → a ∈ l ∧ a ∉ m.freed) ∧
      (∀ x ∈ m.freed, x < c.ra.length ∧ ∃ j, j < x ∧ fname c.mem j = fname c.mem x) := by
  have hc := collect_collected trace _ c h collected_init
  obtain ⟨s, l, m, h1, hctx, hperm, h2, h3, h4, h5, h6⟩ := sorted_deduped_spec c hc
  have hperm2 : s.Perm (List.range c.ra.length) := by rw [← hc.1]; exact hperm
  have hmem : ∀ x, x ∈ l ↔ x < c.ra.length ∧ ∀ j, j < x → fname c.mem j ≠ fname c.mem x :=
    fun x => (h4 x).trans (first_seen_iff (fname c.mem) s c.ra.length hctx hperm2 x)
  have hl : l = (List.range c.ra.length).filter
      (fun i => decide (∀ j, j < i → fname c.mem j ≠ fname c.mem i)) := by
    refine sorted_lists_eq _ _ h3 ((List.pairwise_lt_range _).filter _) ?_
    intro x
    rw [hmem x, List.mem_filter, List.mem_range, decide_eq_true_iff]
  refine ⟨s, l, m, h1, hctx.2.2, hc.1, h2, hl, ?_, h6, ?_, ?_⟩
  · simp only [paths]
    exact List.map_congr_left (fun a _ => h5 a)
  · intro a ha
    have ha0 : a = 0 ∧ 0 < c.ra.length := by
      rw [first_ra, hc.1, List.head?_range] at ha
      split_ifs at ha with h0
      · exact ⟨(Option.some.inj ha).symm, by omega⟩
    have hal : a ∈ l := (hmem a).2 ⟨by omega, fun j hj => by omega⟩
    exact ⟨hal, h6 a hal⟩
  · intro x hx
    have hrd : ∃ ra1, remove_dupes s c.mem = some (ra1, m) := by
      simp only [sorted_deduped, h1] at h2
      cases hr : remove_dupes s c.mem with
      | none => rw [hr] at h2; simp at h2
      | some r =>
        obtain ⟨ra1, m1⟩ := r
        rw [hr] at h2
        simp only at h2
        cases hw : walk m1 c.ra.length (first_ra c) with
        | none => rw [hw] at h2; simp at h2
        | some l1 =>
          rw [hw] at h2
          simp only [Option.some.injEq, Prod.mk.injEq] at h2
          exact ⟨ra1, by rw [h2.2]⟩
    obtain ⟨ra1, hr⟩ := hrd
    have hxs : x ∈ s := by
      rcases remove_dupes_freed s c.mem ra1 m hr x hx with c1 | c1
      · rw [hc.2.1] at c1; simp at c1
      · exact c1
    have hxn : x < c.ra.length := List.mem_range.1 (hperm2.mem_iff.1 hxs)
    refine ⟨hxn, ?_⟩
    have hnl : x ∉ l := fun hm => h6 x hm hx
    rw [hmem x] at hnl
    by_contra hne
    apply hnl
    refine ⟨hxn, fun j hj hn => hne ⟨j, hj, hn⟩⟩

/-- Witness of C17: the trace of the scenario, where the second node, a
duplicate of the first, is the one freed. -/
theorem first_ra_list_first_seen_witness :
    ∃ c, collect trace3 collector.init = some c ∧
      ∃ l m, sorted_deduped c = some (l, m) ∧ l = [0] ∧ m.freed = [1] ∧
        paths m l = [cstr "/bin/ls"] := by
  have hs : (collect trace3 collector.init).isSome = true := by decide
  obtain ⟨c, hc⟩ := Option.isSome_iff_exists.1 hs
  obtain ⟨_, l, m, _, _, _, h4, h5, h6, _, _, _⟩ := first_ra_list_first_seen trace3 c hc
  have hev : ((collect trace3 collector.init).bind sorted_deduped).map
      (fun r => (r.1, r.2.freed, paths r.2 r.1)) = some ([0], [1], [cstr "/bin/ls"]) := by
    decide
  rw [hc] at hev
  simp only [Option.some_bind, h4, Option.map_some', Option.some.injEq, Prod.mk.injEq] at hev
  exact ⟨c, hc, l, m, h4, hev.1, hev.2.1, hev.2.2⟩

/-! ## reduce_blocks on ascending lists -/

theorem chain_precedes_pairwise :
    ∀ l : List ra_record, List.Chain' precedes l → List.Pairwise precedes l := by
  intro l
  induction l with
  | nil => intro _; exact List.Pairwise.nil
  | cons x l ih =>
    intro h
    cases l with
    | nil => exact List.pairwise_singleton _ _
    | cons y l =>
      obtain ⟨hxy, hc⟩ := List.chain'_cons.1 h
      have hp := ih hc
      refine List.Pairwise.cons ?_ hp
      intro z hz
      rcases List.mem_cons.1 hz with e | e
      · rw [e]; exact hxy
      · have := (List.pairwise_cons.1 hp).1 z e
        unfold precedes at *
        omega

theorem rec_at_take (record : List ra_record) (count k : Nat) (hk : k < count) :
    rec_at (record.take count) k = rec_at record k := by
  simp only [rec_at, List.getD_eq_getElem?_getD, List.getElem?_take_of_lt hk]

theorem split_pair (A : List ra_record) (t : Nat) (h : t + 1 < A.length) :
    A = A.take t ++ rec_at A t :: rec_at A (t + 1) :: A.drop (t + 2) := by
  apply List.ext_getElem?
  intro k
  have hl : (A.take t).length = t := by rw [List.length_take]; omega
  rcases Nat.lt_trichotomy k t with c | c | c
  · rw [List.getElem?_append_left (by omega), List.getElem?_take_of_lt c]
  · subst c
    rw [List.getElem?_append_right (by omega), hl, Nat.sub_self]
    simp [rec_at, List.getD_eq_getElem?_getD, List.getElem?_eq_getElem, show k < A.length by omega]
  · rw [List.getElem?_append_right (by omega), hl]
    obtain ⟨d, hd⟩ : ∃ d, k - t = d + 1 := ⟨k - t - 1, by omega⟩
    rw [hd, List.getElem?_cons_succ]
    cases d with
    | zero =>
      have hk : k = t + 1 := by omega
      subst hk
      simp [rec_at, List.getD_eq_getElem?_getD, List.getElem?_eq_getElem, h]
    | succ d =>
      rw [List.getElem?_cons_succ, List.getElem?_drop]
      congr 1
      omega

theorem merge_record_take (record : List ra_record) (count t : Nat)
    (ht : t + 1 < count) (hc : count ≤ record.length) :
    (merge_record copy_order.ascending record count t).1.take (count - 1) =
      (record.take count).take t ++
        { offset := (rec_at (record.take count) t).offset,
          len := u32 ((rec_at (record.take count) (t + 1)).offset
            + (rec_at (record.take count) (t + 1)).len
            - (rec_at (record.take count) t).offset) } ::
        (record.take count).drop (t + 2) := by
  obtain ⟨h1, h2, h3⟩ := merge_record_get record count t ht hc
  have hA : (record.take count).length = count := by rw [List.length_take]; omega
  have hl : ((record.take count).take t).length = t := by rw [List.length_take]; omega
  rw [rec_at_take record count t (by omega), rec_at_take record count (t + 1) (by omega)]
  apply List.ext_getElem?
  intro k
  by_cases hk : k < count - 1
  · rw [List.getElem?_take_of_lt hk]
    rcases Nat.lt_trichotomy k t with c | c | c
    · rw [h1 k c, List.getElem?_append_left (by omega), List.getElem?_take_of_lt c,
        List.getElem?_take_of_lt (by omega)]
    · subst c
      rw [h2, List.getElem?_append_right (by omega), hl, Nat.sub_self]
      simp
    · rw [h3 k c (by omega), List.getElem?_append_right (by omega), hl]
      obtain ⟨d, hd⟩ : ∃ d, k - t = d + 1 := ⟨k - t - 1, by omega⟩
      rw [hd, List.getElem?_cons_succ, List.getElem?_drop, List.getElem?_take_of_lt (by omega)]
      congr 1
      omega
  · rw [List.getElem?_take, if_neg hk, List.getElem?_eq_none]
    simp only [List.length_append, List.length_cons, List.length_drop, hl, hA]
    omega

theorem refines_refl (A : List ra_record) (h : ascending A) : refines A A :=
  ⟨h, rfl, rfl, fun a ha => ⟨a, ha, Nat.le_refl _, Nat.le_refl _⟩⟩

theorem refines_trans (A B C : List ra_record) (h1 : refines A B) (h2 : refines B C) :
    refines A C := by
  obtain ⟨_, b1, b2, b3⟩ := h1
  obtain ⟨c0, c1, c2, c3⟩ := h2
  refine ⟨c0, c1.trans b1, c2.trans b2, ?_⟩
  intro a ha
  obtain ⟨b, hb, i1, i2⟩ := b3 a ha
  obtain ⟨c, hc, j1, j2⟩ := c3 b hb
  exact ⟨c, hc, Nat.le_trans j1 i1, Nat.le_trans i2 j2⟩

theorem refines_step (P S : List ra_record) (x y : ra_record)
    (h : ascending (P ++ x :: y :: S)) :
    refines (P ++ x :: y :: S)
      (P ++ { offset := x.offset, len := u32 (y.offset + y.len - x.offset) } :: S) := by
  obtain ⟨hp, hb⟩ := h
  obtain ⟨p1, p2, p3⟩ := List.pairwise_append.1 hp
  obtain ⟨q1, q2⟩ := List.pairwise_cons.1 p2
  obtain ⟨q3, q4⟩ := List.pairwise_cons.1 q2
  have hxy : x.offset + x.len ≤ y.offset := q1 y (by simp)
  have hyb : y.offset + y.len < 4294967296 := hb y (by simp)
  have hz : x.offset + u32 (y.offset + y.len - x.offset) = y.offset + y.len := by
    have := u32_exact x.offset (y.offset + y.len) (by omega) hyb
    simpa using this
  refine ⟨⟨?_, ?_⟩, ?_, ?_, ?_⟩
  · refine List.pairwise_append.2 ⟨p1, List.Pairwise.cons ?_ q4, ?_⟩
    · intro s hs
      have := q3 s hs
      unfold precedes at *
      simp only
      omega
    · intro a ha b hb2
      rcases List.mem_cons.1 hb2 with e | e
      · have := p3 a ha x (by simp)
        rw [e]
        exact this
      · exact p3 a ha b (by simp [e])
  · intro a ha
    rcases List.mem_append.1 ha with e | e
    · exact hb a (by simp [e])
    · rcases List.mem_cons.1 e with e1 | e1
      · rw [e1]; simp only; omega
      · exact hb a (by simp [e1])
  · cases P <;> rfl
  · rw [List.getLast?_append_cons, List.getLast?_append_cons, List.getLast?_cons_cons]
    cases S with
    | nil => simp [range_end, hz]
    | cons s S1 => rw [List.getLast?_cons_cons, List.getLast?_cons_cons]
  · intro a ha
    rcases List.mem_append.1 ha with e | e
    · exact ⟨a, by simp [e], Nat.le_refl _, Nat.le_refl _⟩
    · rcases List.mem_cons.1 e with e1 | e1
      · refine ⟨_, List.mem_append_right _ (List.mem_cons_self _ _), ?_, ?_⟩
        · rw [e1]
        · rw [e1]; simp only; omega
      · rcases List.mem_cons.1 e1 with e2 | e2
        · refine ⟨_, List.mem_append_right _ (List.mem_cons_self _ _), ?_, ?_⟩
          · rw [e2]; simp only; omega
          · rw [e2]; simp only; omega
        · exact ⟨a, by simp [e2], Nat.le_refl _, Nat.le_refl _⟩

theorem reduce_loop_refines (target : Nat) (ht : 1 ≤ target) :
    ∀ (fuel : Nat) (record : List ra_record) (count : Nat), count ≤ target + fuel →
      count ≤ record.length → ascending (record.take count) →
      ∃ r c, reduce_loop copy_order.ascending target fuel record count = some (r, c) ∧
        c = min count target ∧
        r.length = record.length ∧ refines (record.take count) (r.take c) := by
  intro fuel
  induction fuel with
  | zero =>
    intro record count h hc ha
    have hn : ¬ count > target := by omega
    exact ⟨record, count, by simp [reduce_loop, hn], by omega, rfl, refines_refl _ ha⟩
  | succ fuel ih =>
    intro record count h hc ha
    by_cases hn : count > target
    · have ht2 : smallest_gap record count + 1 < count := smallest_gap_lt record count (by omega)
      have hA : (record.take count).length = count := by rw [List.length_take]; omega
      have hsplit := split_pair (record.take count) (smallest_gap record count) (by omega)
      have hm := merge_record_take record count (smallest_gap record count) ht2 hc
      have hstep := refines_step ((record.take count).take (smallest_gap record count))
        ((record.take count).drop (smallest_gap record count + 2))
        (rec_at (record.take count) (smallest_gap record count))
        (rec_at (record.take count) (smallest_gap record count + 1)) (by rw [← hsplit]; exact ha)
      rw [← hsplit, ← hm] at hstep
      obtain ⟨r, c, e1, e2, e3, e4⟩ :=
        ih (merge_record copy_order.ascending record count (smallest_gap record count)).1
          (count - 1) (by omega) (by rw [merge_record_length]; omega) hstep.1
      refine ⟨r, c, ?_, by omega, by rw [e3, merge_record_length],
        refines_trans _ _ _ hstep e4⟩
      simp only [reduce_loop, hn, if_true]
      exact e1
    · exact ⟨record, count, by simp [reduce_loop, hn], by omega, rfl, refines_refl _ ha⟩

theorem inside_unique (B : List ra_record) (hB : List.Pairwise precedes B) (a : ra_record)
    (ha : a.len ≠ 0) (i j : Nat) (b1 b2 : ra_record) (h1 : B[i]? = some b1)
    (h2 : B[j]? = some b2) (c1 : inside a b1) (c2 : inside a b2) : i = j := by
  have key : ∀ (i j : Nat) (b1 b2 : ra_record), B[i]? = some b1 → B[j]? = some b2 →
      inside a b1 → inside a b2 → ¬ i < j := by
    intro i j b1 b2 h1 h2 c1 c2 hlt
    obtain ⟨hi, e1⟩ := List.getElem?_eq_some_iff.1 h1
    obtain ⟨hj, e2⟩ := List.getElem?_eq_some_iff.1 h2
    have := List.pairwise_iff_getElem.1 hB i j hi hj hlt
    rw [e1, e2] at this
    unfold precedes at this
    unfold inside at c1 c2
    omega
  rcases Nat.lt_trichotomy i j with c | c | c
  · exact (key i j b1 b2 h1 h2 c1 c2 c).elim
  · exact c
  · exact (key j i b2 b1 h2 h1 c2 c1 c).elim

/-- The reduction when `memcpy` copies in ascending order of address, which is
what `memmove` gives: for every array `record` and count whose ranges in use
are ascending and non-overlapping (each `offset + len` at most the next
`offset`, no end beyond 32 bits) and every target of at least 1,
`reduce_blocks` returns, and the ranges it leaves in use are again ascending
and non-overlapping, start at the same first offset, end at the same last
end, and every input range is contained in an output range; an input range of
non-zero length is contained in exactly one. -/
theorem reduce_blocks_refines (record : List ra_record) (count target : Nat)
    (ht : 1 ≤ target) (hc : count ≤ record.length)
    (hasc : List.Chain' precedes (record.take count))
    (hb : ∀ a ∈ record.take count, a.offset + a.len < 4294967296) :
    ∃ r c, reduce_blocks copy_order.ascending record count target = some (r, c) ∧
      List.Chain' precedes (r.take c) ∧
      (∀ b ∈ r.take c, b.offset + b.len < 4294967296) ∧
      (r.take c).head?.map (fun x => x.offset) =
        (record.take count).head?.map (fun x => x.offset) ∧
      (r.take c).getLast?.map range_end = (record.take count).getLast?.map range_end ∧
      (∀ a ∈ record.take count, ∃ b ∈ r.take c, inside a b) ∧
      (∀ a ∈ record.take count, a.len ≠ 0 → ∀ (i j : Nat) (b1 b2 : ra_record),
        (r.take c)[i]? = some b1 → (r.take c)[j]? = some b2 →
        inside a b1 → inside a b2 → i = j) := by
  obtain ⟨r, c, e1, _, _, ⟨a1, a2⟩, e3, e4, e5⟩ :=
    reduce_loop_refines target ht count record count (by omega) hc
      ⟨chain_precedes_pairwise _ hasc, hb⟩
  refine ⟨r, c, e1, a1.chain', a2, e3, e4, e5, ?_⟩
  intro a _ hlen i j b1 b2 h1 h2 c1 c2
  exact inside_unique _ a1 a hlen i j b1 b2 h1 h2 c1 c2

/-- C18 (the code at the failing input): the scan of the file `seven_runs`
leaves seven ranges that are ascending and non-overlapping, with no end beyond
32 bits, and `get_blocks` passes them to `reduce_blocks` with target
`MAXRECS = 6`. The one merge shifts five slots with `memcpy`, source and
destination overlapping. With a copy in descending order of address the ranges
left in use are `(0, 12287)` and five times `(49152, 4095)`: the list is not
ascending and non-overlapping, since `(49152, 4095)` does not end before the
start of its copy; the input range `(16384, 4095)` is contained in no output
range; and the input range `(49152, 4095)` is contained in five of them. A
copy in ascending order leaves the six ranges the claim describes. -/
theorem reduce_blocks_overlap :
    scan_ranges seven_runs =
      some [⟨0, 4095⟩, ⟨8192, 4095⟩, ⟨16384, 4095⟩, ⟨24576, 4095⟩, ⟨32768, 4095⟩,
        ⟨40960, 4095⟩, ⟨49152, 4095⟩] ∧
    List.Chain' precedes [⟨0, 4095⟩, ⟨8192, 4095⟩, ⟨16384, 4095⟩, ⟨24576, 4095⟩,
      ⟨32768, 4095⟩, ⟨40960, 4095⟩, ⟨49152, 4095⟩] ∧
    (∀ a ∈ [(⟨0, 4095⟩ : ra_record), ⟨8192, 4095⟩, ⟨16384, 4095⟩, ⟨24576, 4095⟩,
      ⟨32768, 4095⟩, ⟨40960, 4095⟩, ⟨49152, 4095⟩], a.offset + a.len < 4294967296) ∧
    (scan seven_runs).bind (fun s =>
        (reduce_blocks copy_order.descending s.record s.rcount MAXRECS).map
          (fun r => (r.1.take r.2, r.2))) =
      some ([⟨0, 12287⟩, ⟨49152, 4095⟩, ⟨49152, 4095⟩, ⟨49152, 4095⟩, ⟨49152, 4095⟩,
        ⟨49152, 4095⟩], 6) ∧
    ¬ List.Chain' precedes [⟨0, 12287⟩, ⟨49152, 4095⟩, ⟨49152, 4095⟩, ⟨49152, 4095⟩,
      ⟨49152, 4095⟩, ⟨49152, 4095⟩] ∧
    ¬ precedes ⟨49152, 4095⟩ ⟨49152, 4095⟩ ∧
    (∀ b ∈ [(⟨0, 12287⟩ : ra_record), ⟨49152, 4095⟩, ⟨49152, 4095⟩, ⟨49152, 4095⟩,
      ⟨49152, 4095⟩, ⟨49152, 4095⟩], ¬ inside ⟨16384, 4095⟩ b) ∧
    inside ⟨49152, 4095⟩ ⟨49152, 4095⟩ ∧
    (scan seven_runs).bind (fun s =>
        (reduce_blocks copy_order.ascending s.record s.rcount MAXRECS).map
          (fun r => (r.1.take r.2, r.2))) =
      some ([⟨0, 12287⟩, ⟨16384, 4095⟩, ⟨24576, 4095⟩, ⟨32768, 4095⟩, ⟨40960, 4095⟩,
        ⟨49152, 4095⟩], 6) :=
  ⟨by decide, List.Pairwise.chain' (by decide), by decide, by decide,
    fun h => absurd (chain_precedes_pairwise _ h) (by decide), by decide, by decide, by decide,
    by decide⟩

end Sreadahead
